import Mathlib

/-!
# go_news: the HTML-to-text extraction core of `gonews.go`

A shallow embedding of `extractTextFromHTML` and `decodeHTMLEntities`.

A Go `string` is a sequence of bytes, and `len`, slicing and `strings.Split` all work
on bytes, so a string is modelled as a `List Nat` whose elements are byte values.
Go's `regexp` package returns, at the leftmost position where a match exists, the match
a backtracking search finds first.  The regular expressions of the program are embedded
one by one as backtracking matchers written in continuation-passing style: each
combinator receives the matcher of the rest of the pattern and tries its own
alternatives in the priority order of the pattern (greedy: longest first, lazy: shortest
first, alternation: left to right).  Every literal of the patterns is ASCII and an ASCII
byte is never part of a multi-byte UTF-8 sequence; the classes `[^>]`, `[^"]` and the dot
take any rune, so any byte; the only non-ASCII text a literal can match is U+017F, the
case fold of `s`.  So matching byte by byte agrees with Go's matching rune by rune.
-/

namespace GoNews

/-- A Go string: its bytes. -/
abbrev Str := List Nat

/-- The bytes of an ASCII literal. -/
def ascii (s : String) : Str := s.data.map Char.toNat

/-! ## Regular-expression combinators -/

/-- One literal byte `c` of a pattern, matched exactly; the rest of the input on success. -/
def byteExact (c : Nat) : Str → Option Str
  | [] => none
  | b :: t => if b = c then some t else none

/-- One literal byte `c` of a pattern under the flag `i`: a letter matches both of its
cases, and `s` and `k` also match the runes U+017F (bytes C5 BF) and U+212A (bytes
E2 84 AA), which Unicode simple folding puts in their orbits. -/
def byteFold (c : Nat) : Str → Option Str
  | [] => none
  | b :: t =>
    if b = c then some t
    else if 97 ≤ c ∧ c ≤ 122 ∧ b + 32 = c then some t
    else if 65 ≤ c ∧ c ≤ 90 ∧ b = c + 32 then some t
    else if (c = 115 ∨ c = 83) ∧ b = 197 then
      match t with
      | 191 :: t2 => some t2
      | _ => none
    else if (c = 107 ∨ c = 75) ∧ b = 226 then
      match t with
      | 132 :: 170 :: t2 => some t2
      | _ => none
    else none

/-- A literal, then the rest of the pattern `k`. -/
def reLit {α : Type} (l : Str) (k : Str → Option α) : Str → Option α :=
  match l with
  | [] => k
  | c :: cs => fun s =>
    match byteExact c s with
    | some t => reLit cs k t
    | none => none

/-- A literal under the flag `i`, then the rest of the pattern `k`. -/
def reLitFold {α : Type} (l : Str) (k : Str → Option α) : Str → Option α :=
  match l with
  | [] => k
  | c :: cs => fun s =>
    match byteFold c s with
    | some t => reLitFold cs k t
    | none => none

/-- Greedy `[class]*` then `k`: first one more byte of the class, then `k` here. -/
def reStar {α : Type} (p : Nat → Bool) (k : Str → Option α) : Str → Option α
  | [] => k []
  | b :: t =>
    if p b then
      match reStar p k t with
      | some r => some r
      | none => k (b :: t)
    else k (b :: t)

/-- Greedy `[class]+` then `k`. -/
def rePlus {α : Type} (p : Nat → Bool) (k : Str → Option α) : Str → Option α
  | [] => none
  | b :: t => if p b then reStar p k t else none

/-- Greedy capturing `([class]+)` then `k`: the captured bytes and the result of `k`. -/
def reStarCap {α : Type} (p : Nat → Bool) (k : Str → Option α) : Str → Option (Str × α)
  | [] => (k []).map (fun r => ([], r))
  | b :: t =>
    if p b then
      match reStarCap p k t with
      | some (cap, r) => some (b :: cap, r)
      | none => (k (b :: t)).map (fun r => ([], r))
    else (k (b :: t)).map (fun r => ([], r))

/-- Greedy capturing `([class]+)` then `k`. -/
def rePlusCap {α : Type} (p : Nat → Bool) (k : Str → Option α) : Str → Option (Str × α)
  | [] => none
  | b :: t =>
    if p b then
      match reStarCap p k t with
      | some (cap, r) => some (b :: cap, r)
      | none => none
    else none

/-- Lazy `.*?` under the flag `s` then `k`: first `k` here, then one more byte. -/
def reLazy {α : Type} (k : Str → Option α) : Str → Option α
  | [] => k []
  | b :: t =>
    match k (b :: t) with
    | some r => some r
    | none => reLazy k t

/-- Lazy capturing `(.*?)` under the flag `s` then `k`. -/
def reLazyCap {α : Type} (k : Str → Option α) : Str → Option (Str × α)
  | [] => (k []).map (fun r => ([], r))
  | b :: t =>
    match k (b :: t) with
    | some r => some ([], r)
    | none =>
      match reLazyCap k t with
      | some (cap, r) => some (b :: cap, r)
      | none => none

/-- One byte of a class, `[class]`, then `k`. -/
def reOne {α : Type} (p : Nat → Bool) (k : Str → Option α) : Str → Option α
  | [] => none
  | b :: t => if p b then k t else none

/-- Greedy optional literal byte `c?` then `k`. -/
def reOpt {α : Type} (c : Nat) (k : Str → Option α) (s : Str) : Option α :=
  match reLit [c] k s with
  | some r => some r
  | none => k s

/-- Alternation of literals under the flag `i`, `(?:l1|l2|...)`, then `k`. -/
def reAltFold {α : Type} (ls : List Str) (k : Str → Option α) (s : Str) : Option α :=
  match ls with
  | [] => none
  | l :: rest =>
    match reLitFold l k s with
    | some r => some r
    | none => reAltFold rest k s

/-- The end of a pattern: the match succeeds and leaves the rest of the input. -/
def reEnd (s : Str) : Option Str := some s

/-- The class `[^>]`. -/
def notGt (b : Nat) : Bool := b != 62

/-- The class `[^"]`. -/
def notQuote (b : Nat) : Bool := b != 34

/-- The class `\s` of Go's regexp: tab, newline, form feed, carriage return, space. -/
def isReSpace (b : Nat) : Bool := b == 9 || b == 10 || b == 12 || b == 13 || b == 32

/-- The class `\d`. -/
def isDigit (b : Nat) : Bool := 48 ≤ b && b ≤ 57

/-- The class `[xX]`. -/
def isX (b : Nat) : Bool := b == 120 || b == 88

/-- The class `[0-9A-Fa-f]`. -/
def isHexDigit (b : Nat) : Bool :=
  (48 ≤ b && b ≤ 57) || (65 ≤ b && b ≤ 70) || (97 ≤ b && b ≤ 102)

/-! ## Searching and replacing -/

/-- Scan of `ReplaceAllString` / `ReplaceAllStringFunc` / `strings.ReplaceAll`: `m` is
the pattern anchored at the current position and returns the input left after the
match.  The first argument counts the bytes of the current match still to be skipped.
At a position outside a match the pattern is tried; on success the replacement
`f` of the matched text is emitted and the search resumes after the match, otherwise
the byte is copied.  (No pattern of the program matches the empty string.) -/
def replaceAux (m : Str → Option Str) (f : Str → Str) : Nat → Str → Str
  | _, [] => []
  | k + 1, _ :: t => replaceAux m f k t
  | 0, b :: t =>
    match m (b :: t) with
    | some rest =>
      let n := (b :: t).length - rest.length
      f ((b :: t).take n) ++ replaceAux m f (n - 1) t
    | none => b :: replaceAux m f 0 t

/-- `ReplaceAllStringFunc(s, f)` for the pattern `m`. -/
def replaceAllFunc (m : Str → Option Str) (f : Str → Str) (s : Str) : Str :=
  replaceAux m f 0 s

/-- `ReplaceAllString(s, repl)` for the pattern `m` (no `repl` of the program has a `$`). -/
def replaceAll (m : Str → Option Str) (repl : Str) (s : Str) : Str :=
  replaceAllFunc m (fun _ => repl) s

/-- `FindStringSubmatch`: the result of the pattern at the leftmost position where it
matches, `none` when it matches nowhere. -/
def findFirst {α : Type} (m : Str → Option α) : Str → Option α
  | [] => m []
  | b :: t =>
    match m (b :: t) with
    | some r => some r
    | none => findFirst m t

/-! ## The patterns of `extractTextFromHTML` -/

/-- `(?is)<script[^>]*>.*?</script>` -/
def reScript : Str → Option Str :=
  reLitFold (ascii "<script") (reStar notGt (reLit (ascii ">")
    (reLazy (reLitFold (ascii "</script>") reEnd))))

/-- `(?is)<style[^>]*>.*?</style>` -/
def reStyle : Str → Option Str :=
  reLitFold (ascii "<style") (reStar notGt (reLit (ascii ">")
    (reLazy (reLitFold (ascii "</style>") reEnd))))

/-- `(?s)<!--.*?-->` -/
def reComment : Str → Option Str :=
  reLit (ascii "<!--") (reLazy (reLit (ascii "-->") reEnd))

/-- The noise stripper: scripts, styles and comments are removed, in this order. -/
def stripNoise (html : Str) : Str :=
  replaceAll reComment [] (replaceAll reStyle [] (replaceAll reScript [] html))

/-- `(?is)<article[^>]*>(.*?)</article>`: the captured group and the rest of the input. -/
def reArticle : Str → Option (Str × Str) :=
  reLitFold (ascii "<article") (reStar notGt (reLit (ascii ">")
    (reLazyCap (reLitFold (ascii "</article>") reEnd))))

/-- `(?is)<main[^>]*>(.*?)</main>` -/
def reMain : Str → Option (Str × Str) :=
  reLitFold (ascii "<main") (reStar notGt (reLit (ascii ">")
    (reLazyCap (reLitFold (ascii "</main>") reEnd))))

/-- The alternation `(?:article|content|story|post|entry)` of the two `div` patterns. -/
def contentTokens : List Str :=
  [ascii "article", ascii "content", ascii "story", ascii "post", ascii "entry"]

/-- The part the two `div` patterns share, after the attribute name:
`="[^"]*(?:article|content|story|post|entry)[^"]*"[^>]*>(.*?)</div>` -/
def reDivTail : Str → Option (Str × Str) :=
  reLit (ascii "=\"") (reStar notQuote (reAltFold contentTokens
    (reStar notQuote (reLit (ascii "\"") (reStar notGt (reLit (ascii ">")
      (reLazyCap (reLitFold (ascii "</div>") reEnd))))))))

/-- `(?is)<div[^>]*class="[^"]*(?:article|content|story|post|entry)[^"]*"[^>]*>(.*?)</div>` -/
def reDivClass : Str → Option (Str × Str) :=
  reLitFold (ascii "<div") (reStar notGt (reLitFold (ascii "class") reDivTail))

/-- `(?is)<div[^>]*id="[^"]*(?:article|content|story|post|entry)[^"]*"[^>]*>(.*?)</div>` -/
def reDivId : Str → Option (Str × Str) :=
  reLitFold (ascii "<div") (reStar notGt (reLitFold (ascii "id") reDivTail))

/-- `(?is)<body[^>]*>(.*?)</body>` -/
def reBody : Str → Option (Str × Str) :=
  reLitFold (ascii "<body") (reStar notGt (reLit (ascii ">")
    (reLazyCap (reLitFold (ascii "</body>") reEnd))))

/-- The slice `patterns`, in the order of the source. -/
def patterns : List (Str → Option (Str × Str)) :=
  [reArticle, reMain, reDivClass, reDivId]

/-- `FindStringSubmatch(html)` of a pattern with one group: `matches[1]` when there is a
match (then `len(matches) > 1` holds), `none` when there is none. -/
def findSubmatch (pat : Str → Option (Str × Str)) (html : Str) : Option Str :=
  (findFirst pat html).map Prod.fst

/-- The loop over `patterns`: the first pattern whose leftmost match captures more than
200 bytes sets `content` and ends the loop; `content` stays empty when there is none. -/
def selectLoop : List (Str → Option (Str × Str)) → Str → Str
  | [], _ => []
  | pat :: rest, html =>
    match findSubmatch pat html with
    | some cap => if cap.length > 200 then cap else selectLoop rest html
    | none => selectLoop rest html

/-- The content-region selector: the loop over `patterns`, then, when `content` is still
empty, the group of the `body` pattern, or the whole document when that does not match. -/
def selectRegion (html : Str) : Str :=
  let content := selectLoop patterns html
  if content = [] then
    match findSubmatch reBody html with
    | some cap => cap
    | none => html
  else content

/-- `<br\s*/?>|<p\s*/?>|</p>` -/
def reBreak (s : Str) : Option Str :=
  match reLit (ascii "<br") (reStar isReSpace (reOpt 47 (reLit (ascii ">") reEnd))) s with
  | some r => some r
  | none =>
    match reLit (ascii "<p") (reStar isReSpace (reOpt 47 (reLit (ascii ">") reEnd))) s with
    | some r => some r
    | none => reLit (ascii "</p>") reEnd s

/-- `<[^>]+>` -/
def reTag : Str → Option Str :=
  reLit (ascii "<") (rePlus notGt (reLit (ascii ">") reEnd))

/-- The two tag replacements: block boundaries become a newline, every other tag a space. -/
def stripTags (content : Str) : Str :=
  replaceAll reTag [32] (replaceAll reBreak [10] content)

/-! ## `decodeHTMLEntities` -/

/-- The map `entities`, in the order the source lists it: entity and replacement
(the bytes of the replacement's UTF-8 encoding). -/
def entities : List (Str × Str) := [
  (ascii "&nbsp;", [32]),
  (ascii "&amp;", [38]),
  (ascii "&lt;", [60]),
  (ascii "&gt;", [62]),
  (ascii "&quot;", [34]),
  (ascii "&#34;", [34]),
  (ascii "&#39;", [39]),
  (ascii "&apos;", [39]),
  (ascii "&ndash;", [226, 128, 147]),
  (ascii "&mdash;", [226, 128, 148]),
  (ascii "&lsquo;", [39]),
  (ascii "&rsquo;", [39]),
  (ascii "&ldquo;", [34]),
  (ascii "&rdquo;", [34]),
  (ascii "&hellip;", [226, 128, 166]),
  (ascii "&bull;", [226, 128, 162]),
  (ascii "&middot;", [194, 183]),
  (ascii "&copy;", [194, 169]),
  (ascii "&reg;", [194, 174]),
  (ascii "&trade;", [226, 132, 162]),
  (ascii "&euro;", [226, 130, 172]),
  (ascii "&pound;", [194, 163]),
  (ascii "&yen;", [194, 165]),
  (ascii "&cent;", [194, 162]),
  (ascii "&deg;", [194, 176]),
  (ascii "&plusmn;", [194, 177]),
  (ascii "&times;", [195, 151]),
  (ascii "&divide;", [195, 183]),
  (ascii "&ne;", [226, 137, 160]),
  (ascii "&le;", [226, 137, 164]),
  (ascii "&ge;", [226, 137, 165]),
  (ascii "&para;", [194, 182]),
  (ascii "&sect;", [194, 167])]

/-- `strings.ReplaceAll(s, old, new)` for a non-empty `old`: every non-overlapping
occurrence of `old`, found from the left, is replaced by `new`. -/
def stringsReplaceAll (s old new : Str) : Str :=
  replaceAll (reLit old reEnd) new s

/-- The loop `for entity, char := range entities`.  Go leaves the order in which `range`
visits a map unspecified, so the order of the visit is the parameter `order`, a
permutation of `entities`. -/
def replaceEntities (order : List (Str × Str)) (text : Str) : Str :=
  order.foldl (fun t e => stringsReplaceAll t e.1 e.2) text

/-- `&#(\d+);`: the captured digits and the rest of the input. -/
def re : Str → Option (Str × Str) :=
  reLit (ascii "&#") (rePlusCap isDigit (reLit (ascii ";") reEnd))

/-- `&#[xX]([0-9A-Fa-f]+);` -/
def reHex : Str → Option (Str × Str) :=
  reLit (ascii "&#") (reOne isX (rePlusCap isHexDigit (reLit (ascii ";") reEnd)))

/-- The value of a digit byte in a base up to 16. -/
def digitVal (b : Nat) : Option Nat :=
  if 48 ≤ b ∧ b ≤ 57 then some (b - 48)
  else if 97 ≤ b ∧ b ≤ 102 then some (b - 87)
  else if 65 ≤ b ∧ b ≤ 70 then some (b - 55)
  else none

/-- The number a token of digits denotes, `none` when a byte is no digit of the base. -/
def parseDigits (base : Nat) : Nat → Str → Option Nat
  | acc, [] => some acc
  | acc, b :: t =>
    match digitVal b with
    | some d => if d < base then parseDigits base (acc * base + d) t else none
    | none => none

/-- `fmt.Sscanf(tok, "%d", &num)` and `fmt.Sscanf(tok, "%x", &num)` on a token made of
digits only, which is all the two patterns capture: the value, or `none` for the error
Sscanf returns when the token is empty, has a byte that is no digit, or its value does
not fit `int` (64 bits). -/
def sscanInt (base : Nat) (tok : Str) : Option Nat :=
  if tok = [] then none
  else
    match parseDigits base 0 tok with
    | some v => if v < 2 ^ 63 then some v else none
    | none => none

/-- The UTF-8 encoding of a code point below 0x110000. -/
def utf8Encode (n : Nat) : Str :=
  if n < 128 then [n]
  else if n < 2048 then [192 + n / 64, 128 + n % 64]
  else if n < 65536 then [224 + n / 4096, 128 + n / 64 % 64, 128 + n % 64]
  else [240 + n / 262144, 128 + n / 4096 % 64, 128 + n / 64 % 64, 128 + n % 64]

/-- `string(rune(num))`: the UTF-8 encoding of the rune, and of U+FFFD when the rune is
a surrogate or above 0x10FFFF. -/
def runeString (n : Nat) : Str :=
  if (55296 ≤ n ∧ n ≤ 57343) ∨ 1114111 < n then [239, 191, 189] else utf8Encode n

/-- The function both numeric passes give to `ReplaceAllStringFunc`: the match is
matched again for its group, the group is scanned as a number in the base, and a
number in range becomes its rune; everything else returns the match. -/
def numericRepl (pat : Str → Option (Str × Str)) (base : Nat) (mtch : Str) : Str :=
  match findSubmatch pat mtch with
  | some digits =>
    match sscanInt base digits with
    | some num => if 0 < num ∧ num < 1114112 then runeString num else mtch
    | none => mtch
  | none => mtch

/-- The pass over decimal references. -/
def decodeDecimal (text : Str) : Str :=
  replaceAllFunc (fun s => (re s).map Prod.snd) (numericRepl re 10) text

/-- The pass over hexadecimal references. -/
def decodeHex (text : Str) : Str :=
  replaceAllFunc (fun s => (reHex s).map Prod.snd) (numericRepl reHex 16) text

/-- `decodeHTMLEntities`, for the order in which the map is visited. -/
def decodeHTMLEntities (order : List (Str × Str)) (text : Str) : Str :=
  decodeHex (decodeDecimal (replaceEntities order text))

/-! ## Lines -/

/-- `strings.Split(s, "\n")` -/
def splitLines : Str → List Str
  | [] => [[]]
  | b :: t =>
    if b = 10 then [] :: splitLines t
    else
      match splitLines t with
      | l :: ls => (b :: l) :: ls
      | [] => [[b]]

/-- The number of bytes of the white-space rune a string starts with, 0 when it starts
with none.  White space is what `unicode.IsSpace` accepts: tab, newline, vertical tab,
form feed, carriage return, space, U+0085, U+00A0, U+1680, U+2000 to U+200A, U+2028,
U+2029, U+202F, U+205F and U+3000. -/
def spaceRuneLen : Str → Nat
  | [] => 0
  | b :: t =>
    if b = 9 ∨ b = 10 ∨ b = 11 ∨ b = 12 ∨ b = 13 ∨ b = 32 then 1
    else
      match t with
      | [] => 0
      | c :: t2 =>
        if b = 194 ∧ (c = 133 ∨ c = 160) then 2
        else
          match t2 with
          | [] => 0
          | d :: _ =>
            if b = 225 ∧ c = 154 ∧ d = 128 then 3
            else if b = 226 ∧ c = 128 ∧ ((128 ≤ d ∧ d ≤ 138) ∨ d = 168 ∨ d = 169 ∨ d = 175) then 3
            else if b = 226 ∧ c = 129 ∧ d = 159 then 3
            else if b = 227 ∧ c = 128 ∧ d = 128 then 3
            else 0

/-- The number of bytes of the white-space rune a string ends with, read off the
reversed string. -/
def spaceRuneLenRev : Str → Nat
  | [] => 0
  | d :: t =>
    if d = 9 ∨ d = 10 ∨ d = 11 ∨ d = 12 ∨ d = 13 ∨ d = 32 then 1
    else
      match t with
      | [] => 0
      | c :: t2 =>
        if c = 194 ∧ (d = 133 ∨ d = 160) then 2
        else
          match t2 with
          | [] => 0
          | b :: _ =>
            if b = 225 ∧ c = 154 ∧ d = 128 then 3
            else if b = 226 ∧ c = 128 ∧ ((128 ≤ d ∧ d ≤ 138) ∨ d = 168 ∨ d = 169 ∨ d = 175) then 3
            else if b = 226 ∧ c = 129 ∧ d = 159 then 3
            else if b = 227 ∧ c = 128 ∧ d = 128 then 3
            else 0

/-- Removal of the leading white-space runes, `len` giving the length of the rune at the
head; the first argument counts the bytes of the current rune still to be dropped. -/
def trimAux (len : Str → Nat) : Nat → Str → Str
  | _, [] => []
  | k + 1, _ :: t => trimAux len k t
  | 0, b :: t =>
    match len (b :: t) with
    | 0 => b :: t
    | n + 1 => trimAux len n t

/-- `strings.TrimSpace` -/
def trimSpace (s : Str) : Str :=
  (trimAux spaceRuneLenRev 0 (trimAux spaceRuneLen 0 s).reverse).reverse

/-- `\s+` -/
def reSpaces : Str → Option Str := rePlus isReSpace reEnd

/-- The body of the loop over the lines, up to the test: trimmed, then every run of
white space replaced by one space. -/
def normalizeLine (line : Str) : Str :=
  replaceAll reSpaces [32] (trimSpace line)

/-- The loop over the lines: a normalized line is appended to `cleanLines` when
`line != "" && len(line) > 10`. -/
def cleanLines : List Str → List Str
  | [] => []
  | line :: rest =>
    if normalizeLine line ≠ [] ∧ (normalizeLine line).length > 10 then
      normalizeLine line :: cleanLines rest
    else cleanLines rest

/-- `strings.Join(elems, sep)` -/
def stringsJoin (sep : Str) : List Str → Str
  | [] => []
  | [a] => a
  | a :: b :: rest => a ++ sep ++ stringsJoin sep (b :: rest)

/-- The text before the size limit: the clean lines joined by two newlines. -/
def joinedText (order : List (Str × Str)) (html : Str) : Str :=
  stringsJoin [10, 10]
    (cleanLines (splitLines (decodeHTMLEntities order (stripTags (selectRegion (stripNoise html))))))

/-- The size limit: `if len(content) > 50000 { content = content[:50000] }`. -/
def limitSize (content : Str) : Str :=
  if content.length > 50000 then content.take 50000 else content

/-- `extractTextFromHTML`, for the order in which `decodeHTMLEntities` visits its map. -/
def extractTextFromHTML (order : List (Str × Str)) (html : Str) : Str :=
  limitSize (joinedText order html)

/-! ## Specification vocabulary -/

/-- A tag-like span: a `<`, then one or more bytes other than `>`, then a `>`. -/
def TagLike (s : Str) : Prop :=
  ∃ pre mid post, s = pre ++ 60 :: mid ++ 62 :: post ∧ mid ≠ [] ∧ 62 ∉ mid

/-- A pattern that can only match at a byte `c`. -/
def HeadOnly {α : Type} (c : Nat) (m : Str → Option α) : Prop :=
  ∀ s r, m s = some r → ∃ t, s = c :: t

/-- The states of a scan for tag-like spans: `clear` (no `<` is pending), `opened` (the
byte before is a `<` that nothing follows yet), `barred` (a `<` was followed by a byte
other than `>`, so that a `>` from here on would close a tag-like span). -/
inductive TagState where
  | clear
  | opened
  | barred
  deriving DecidableEq

/-- The order of the states: a scan in a lower state accepts at least as much. -/
def TagState.rank : TagState → Nat
  | .clear => 0
  | .opened => 1
  | .barred => 2

/-- One byte of the scan; `none` when the byte closes a tag-like span. -/
def tagStep : TagState → Nat → Option TagState
  | .clear, b => if b = 60 then some .opened else some .clear
  | .opened, b => if b = 62 then some .clear else some .barred
  | .barred, b => if b = 62 then none else some .barred

/-- The scan of a text from a state; `none` when the text closes a tag-like span. -/
def tagRun : TagState → Str → Option TagState
  | q, [] => some q
  | q, b :: t =>
    match tagStep q b with
    | some r => tagRun r t
    | none => none

/-- The text `s2` stands a scan wherever `s1` does: from a state no higher than the one
`s1` is scanned from, and ending in a state no higher. -/
def Sim (s1 s2 : Str) : Prop :=
  ∀ q q2 r, q2.rank ≤ q.rank → tagRun q s1 = some r →
    ∃ r2, tagRun q2 s2 = some r2 ∧ r2.rank ≤ r.rank

/-- A pattern with a group whose capture is made of bytes of the input. -/
def CapIn (m : Str → Option (Str × Str)) : Prop :=
  ∀ s cap rest, m s = some (cap, rest) → ∀ x ∈ cap, x ∈ s

/-- A byte of plain text: printable ASCII other than the space, `&` and `<`. -/
def plainByte (b : Nat) : Bool := 33 ≤ b && b ≤ 126 && b != 38 && b != 60

/-! ## Checks on the entity table -/

/-- Every entity of the table starts with `&`. -/
def startsWithAmp (e : Str × Str) : Bool :=
  match e.1 with
  | 38 :: _ => true
  | _ => false

/-! ## Searching and replacing: basic facts -/

theorem replaceAux_skip (m : Str → Option Str) (f : Str → Str) :
    ∀ (s : Str) (k : Nat), replaceAux m f k s = replaceAux m f 0 (s.drop k)
  | [], k => by simp [replaceAux]
  | _ :: _, 0 => by simp
  | _ :: t, k + 1 => by
    simp only [replaceAux, List.drop_succ_cons]
    exact replaceAux_skip m f t k

theorem replaceAllFunc_nil (m : Str → Option Str) (f : Str → Str) :
    replaceAllFunc m f [] = [] := by
  simp [replaceAllFunc, replaceAux]

theorem replaceAllFunc_cons_none {m : Str → Option Str} (f : Str → Str) {b : Nat} {t : Str}
    (h : m (b :: t) = none) :
    replaceAllFunc m f (b :: t) = b :: replaceAllFunc m f t := by
  simp [replaceAllFunc, replaceAux, h]

theorem replaceAllFunc_cons_some {m : Str → Option Str} (f : Str → Str) {b : Nat} {t rest : Str}
    (h : m (b :: t) = some rest) :
    replaceAllFunc m f (b :: t)
      = f ((b :: t).take ((b :: t).length - rest.length))
        ++ replaceAllFunc m f (t.drop ((b :: t).length - rest.length - 1)) := by
  simp only [replaceAllFunc, replaceAux, h]
  rw [replaceAux_skip]

/-- A match that reaches the end of the input: the replacement is the whole output. -/
theorem replaceAllFunc_whole {m : Str → Option Str} (f : Str → Str) {b : Nat} {t : Str}
    (h : m (b :: t) = some []) :
    replaceAllFunc m f (b :: t) = f (b :: t) := by
  rw [replaceAllFunc_cons_some f h]
  simp [replaceAllFunc_nil]

theorem replaceAllFunc_of_not_mem {m : Str → Option Str} {c : Nat} (hm : HeadOnly c m)
    (f : Str → Str) : ∀ s : Str, c ∉ s → replaceAllFunc m f s = s
  | [], _ => replaceAllFunc_nil m f
  | b :: t, hs => by
    have hnone : m (b :: t) = none := by
      cases hmt : m (b :: t) with
      | none => rfl
      | some r =>
        obtain ⟨t2, ht2⟩ := hm _ _ hmt
        simp only [List.cons.injEq] at ht2
        exact absurd (ht2.1 ▸ List.mem_cons_self b t) hs
    rw [replaceAllFunc_cons_none f hnone,
      replaceAllFunc_of_not_mem hm f t (fun h => hs (List.mem_cons_of_mem _ h))]

theorem findFirst_of_not_mem {α : Type} {m : Str → Option α} {c : Nat} (hm : HeadOnly c m) :
    ∀ s : Str, c ∉ s → findFirst m s = none
  | [], _ => by
    cases hmt : m [] with
    | none => simp [findFirst, hmt]
    | some r => obtain ⟨t2, ht2⟩ := hm _ _ hmt; cases ht2
  | b :: t, hs => by
    have hnone : m (b :: t) = none := by
      cases hmt : m (b :: t) with
      | none => rfl
      | some r =>
        obtain ⟨t2, ht2⟩ := hm _ _ hmt
        simp only [List.cons.injEq] at ht2
        exact absurd (ht2.1 ▸ List.mem_cons_self b t) hs
    simp only [findFirst, hnone]
    exact findFirst_of_not_mem hm t (fun h => hs (List.mem_cons_of_mem _ h))

theorem byteExact_eq_some {c : Nat} {s t : Str} (h : byteExact c s = some t) : s = c :: t := by
  cases s with
  | nil => simp [byteExact] at h
  | cons b u =>
    simp only [byteExact] at h
    split at h
    · rename_i hb
      simp only [Option.some.injEq] at h
      rw [hb, h]
    · cases h

theorem headOnly_reLit {α : Type} (c : Nat) (cs : Str) (k : Str → Option α) :
    HeadOnly c (reLit (c :: cs) k) := by
  intro s r h
  simp only [reLit] at h
  cases hb : byteExact c s with
  | none => simp [hb] at h
  | some t => exact ⟨t, byteExact_eq_some hb⟩

theorem byteFold_lt_eq_some {s t : Str} (h : byteFold 60 s = some t) : s = 60 :: t := by
  cases s with
  | nil => simp [byteFold] at h
  | cons b u =>
    simp only [byteFold] at h
    split at h
    · rename_i hb
      simp only [Option.some.injEq] at h
      rw [hb, h]
    · simp at h

theorem headOnly_reLitFold_lt {α : Type} (cs : Str) (k : Str → Option α) :
    HeadOnly 60 (reLitFold (60 :: cs) k) := by
  intro s r h
  simp only [reLitFold] at h
  cases hb : byteFold 60 s with
  | none => simp [hb] at h
  | some t => exact ⟨t, byteFold_lt_eq_some hb⟩

theorem headOnly_map {α β : Type} {c : Nat} {m : Str → Option α} (hm : HeadOnly c m)
    (g : α → β) : HeadOnly c (fun s => (m s).map g) := by
  intro s r h
  cases hms : m s with
  | none => simp [hms] at h
  | some x => exact hm s x hms

/-! ## `decodeHTMLEntities`: text without `&` -/

theorem entities_startsWithAmp : ∀ e ∈ entities, startsWithAmp e = true := by decide

theorem headOnly_entity {e : Str × Str} (he : e ∈ entities) :
    HeadOnly 38 (reLit e.1 reEnd) := by
  have h := entities_startsWithAmp e he
  unfold startsWithAmp at h
  split at h
  · rename_i cs hcs
    rw [hcs]
    exact headOnly_reLit 38 cs reEnd
  · cases h

theorem foldl_fixed {β : Type} (step : Str → β → Str) (t : Str) :
    ∀ l : List β, (∀ e ∈ l, step t e = t) → l.foldl step t = t
  | [], _ => rfl
  | e :: l, h => by
    rw [List.foldl_cons, h e (List.mem_cons_self e l)]
    exact foldl_fixed step t l (fun x hx => h x (List.mem_cons_of_mem _ hx))

/-- A loop of which one step takes `t0` to `t1`, every other step leaves `t0` alone, and
all steps leave `t1` alone, ends at `t1`. -/
theorem foldl_one_step {β : Type} (step : Str → β → Str) (t0 t1 : Str) :
    ∀ l : List β, (∀ e ∈ l, step t0 e = t0 ∨ step t0 e = t1) → (∀ e ∈ l, step t1 e = t1) →
      (∃ e ∈ l, step t0 e = t1) → l.foldl step t0 = t1
  | [], _, _, hex => by obtain ⟨e, he, _⟩ := hex; cases he
  | e :: l, h01, h1, hex => by
    rw [List.foldl_cons]
    by_cases hstep : step t0 e = t1
    · rw [hstep]
      exact foldl_fixed step t1 l (fun x hx => h1 x (List.mem_cons_of_mem _ hx))
    · have h0 : step t0 e = t0 := by
        rcases h01 e (List.mem_cons_self e l) with h | h
        · exact h
        · exact absurd h hstep
      rw [h0]
      refine foldl_one_step step t0 t1 l (fun x hx => h01 x (List.mem_cons_of_mem _ hx))
        (fun x hx => h1 x (List.mem_cons_of_mem _ hx)) ?_
      obtain ⟨x, hx, hxs⟩ := hex
      rcases List.mem_cons.mp hx with rfl | hx
      · exact absurd hxs hstep
      · exact ⟨x, hx, hxs⟩

theorem replaceEntities_of_not_mem {order : List (Str × Str)} (ho : ∀ e ∈ order, e ∈ entities)
    {t : Str} (ht : 38 ∉ t) : replaceEntities order t = t := by
  unfold replaceEntities
  apply foldl_fixed
  intro e he
  exact replaceAllFunc_of_not_mem (headOnly_entity (ho e he)) _ t ht

theorem headOnly_re : HeadOnly 38 re := headOnly_reLit 38 [35] _

theorem headOnly_reHex : HeadOnly 38 reHex := headOnly_reLit 38 [35] _

theorem decodeDecimal_of_not_mem {t : Str} (ht : 38 ∉ t) : decodeDecimal t = t :=
  replaceAllFunc_of_not_mem (headOnly_map headOnly_re Prod.snd) _ t ht

theorem decodeHex_of_not_mem {t : Str} (ht : 38 ∉ t) : decodeHex t = t :=
  replaceAllFunc_of_not_mem (headOnly_map headOnly_reHex Prod.snd) _ t ht

/-- Text without `&` is left as it is, whatever the order of the visit. -/
theorem decodeHTMLEntities_of_not_mem {order : List (Str × Str)}
    (ho : ∀ e ∈ order, e ∈ entities) {t : Str} (ht : 38 ∉ t) :
    decodeHTMLEntities order t = t := by
  unfold decodeHTMLEntities
  rw [replaceEntities_of_not_mem ho ht, decodeDecimal_of_not_mem ht, decodeHex_of_not_mem ht]

theorem mem_entities_of_perm {order : List (Str × Str)} (hp : order.Perm entities) :
    ∀ e ∈ order, e ∈ entities :=
  fun _ he => hp.subset he

/-! ## Numeric references -/

theorem reLit_cons {α : Type} (c : Nat) (cs : Str) (k : Str → Option α) (s : Str) :
    reLit (c :: cs) k (c :: s) = reLit cs k s := by
  simp [reLit, byteExact]

theorem reLit_nil {α : Type} (k : Str → Option α) (s : Str) : reLit [] k s = k s := by
  simp [reLit]

theorem reLit_cons_ne {α : Type} {b c : Nat} (h : b ≠ c) (cs : Str) (k : Str → Option α)
    (s : Str) : reLit (c :: cs) k (b :: s) = none := by
  simp [reLit, byteExact, h]

theorem reLit_eq_some {α : Type} (k : Str → Option α) :
    ∀ (l s : Str) (r : α), reLit l k s = some r → ∃ t, s = l ++ t ∧ k t = some r
  | [], s, r, h => ⟨s, rfl, h⟩
  | c :: cs, s, r, h => by
    simp only [reLit] at h
    cases hb : byteExact c s with
    | none => simp [hb] at h
    | some u =>
      rw [hb] at h
      obtain ⟨t, ht, hk⟩ := reLit_eq_some k cs u r h
      exact ⟨t, by rw [byteExact_eq_some hb, ht]; rfl, hk⟩

theorem reStarCap_all {α : Type} (p : Nat → Bool) (k : Str → Option α) {c : Nat} {rest : Str}
    {r : α} (hc : p c = false) (hk : k (c :: rest) = some r) :
    ∀ ds : Str, (∀ d ∈ ds, p d = true) → reStarCap p k (ds ++ c :: rest) = some (ds, r)
  | [], _ => by simp [reStarCap, hc, hk]
  | d :: ds, h => by
    have hd : p d = true := h d (List.mem_cons_self d ds)
    have ih := reStarCap_all p k hc hk ds (fun x hx => h x (List.mem_cons_of_mem _ hx))
    simp [reStarCap, hd, ih]

theorem rePlusCap_all {α : Type} (p : Nat → Bool) (k : Str → Option α) {c : Nat} {rest : Str}
    {r : α} (hc : p c = false) (hk : k (c :: rest) = some r) {ds : Str} (hne : ds ≠ [])
    (h : ∀ d ∈ ds, p d = true) : rePlusCap p k (ds ++ c :: rest) = some (ds, r) := by
  cases ds with
  | nil => exact absurd rfl hne
  | cons d ds =>
    have hd : p d = true := h d (List.mem_cons_self d ds)
    have ih := reStarCap_all p k hc hk ds (fun x hx => h x (List.mem_cons_of_mem _ hx))
    simp [rePlusCap, hd, ih]

theorem rePlusCap_head_false {α : Type} (p : Nat → Bool) (k : Str → Option α) {c : Nat}
    (hc : p c = false) (s : Str) : rePlusCap p k (c :: s) = none := by
  simp [rePlusCap, hc]

/-- The decimal reference with the digits `ds`. -/
theorem re_decRef {ds : Str} (hne : ds ≠ []) (h : ∀ d ∈ ds, isDigit d = true) :
    re (38 :: 35 :: (ds ++ [59])) = some (ds, []) := by
  unfold re
  have h0 : ascii "&#" = [38, 35] := by decide
  have h1 : ascii ";" = [59] := by decide
  rw [h0, h1, reLit_cons, reLit_cons]
  show rePlusCap isDigit (reLit [59] reEnd) (ds ++ [59]) = some (ds, [])
  exact rePlusCap_all isDigit _ (by decide) (by simp [reLit, byteExact, reEnd]) hne h

theorem re_hexRef_none {x : Nat} (hx : isDigit x = false) (s : Str) :
    re (38 :: 35 :: x :: s) = none := by
  unfold re
  have h0 : ascii "&#" = [38, 35] := by decide
  rw [h0, reLit_cons, reLit_cons]
  exact rePlusCap_head_false isDigit _ hx s

theorem reHex_hexRef {x : Nat} (hx : x = 120 ∨ x = 88) {hs : Str} (hne : hs ≠ [])
    (h : ∀ d ∈ hs, isHexDigit d = true) :
    reHex (38 :: 35 :: x :: (hs ++ [59])) = some (hs, []) := by
  unfold reHex
  have h0 : ascii "&#" = [38, 35] := by decide
  have h1 : ascii ";" = [59] := by decide
  have hxx : isX x = true := by
    rcases hx with rfl | rfl <;> decide
  rw [h0, h1, reLit_cons, reLit_cons, reLit_nil]
  simp only [reOne, hxx, if_true]
  exact rePlusCap_all isHexDigit _ (by decide) (by simp [reLit, byteExact, reEnd]) hne h

theorem reHex_decRef_none {d : Nat} (hd : d ≠ 120 ∧ d ≠ 88) (s : Str) :
    reHex (38 :: 35 :: d :: s) = none := by
  unfold reHex
  have h0 : ascii "&#" = [38, 35] := by decide
  have hxx : isX d = false := by
    simp [isX, hd.1, hd.2]
  rw [h0, reLit_cons, reLit_cons, reLit_nil]
  simp [reOne, hxx]

theorem parseDigits_dec_digits : ∀ (ds : Str) (acc v : Nat), parseDigits 10 acc ds = some v →
    ∀ d ∈ ds, isDigit d = true
  | [], _, _, _ => by simp
  | b :: t, acc, v, h => by
    simp only [parseDigits] at h
    cases hb : digitVal b with
    | none => simp [hb] at h
    | some x =>
      rw [hb] at h
      simp only at h
      split at h
      · rename_i hx
        intro d hd
        rcases List.mem_cons.mp hd with rfl | hd
        · unfold digitVal at hb
          simp only [isDigit, Bool.and_eq_true, decide_eq_true_eq]
          split at hb
          · assumption
          · split at hb
            · simp only [Option.some.injEq] at hb; omega
            · split at hb
              · simp only [Option.some.injEq] at hb; omega
              · cases hb
        · exact parseDigits_dec_digits t _ v h d hd
      · cases h

theorem parseDigits_hex_digits : ∀ (ds : Str) (acc v : Nat), parseDigits 16 acc ds = some v →
    ∀ d ∈ ds, isHexDigit d = true
  | [], _, _, _ => by simp
  | b :: t, acc, v, h => by
    simp only [parseDigits] at h
    cases hb : digitVal b with
    | none => simp [hb] at h
    | some x =>
      rw [hb] at h
      simp only at h
      split at h
      · intro d hd
        rcases List.mem_cons.mp hd with rfl | hd
        · unfold digitVal at hb
          simp only [isHexDigit, Bool.or_eq_true, Bool.and_eq_true, decide_eq_true_eq]
          split at hb
          · left; left; assumption
          · split at hb
            · right; assumption
            · split at hb
              · left; right; assumption
              · cases hb
        · exact parseDigits_hex_digits t _ v h d hd
      · cases h

theorem isDigit_ne_amp {ds : Str} (h : ∀ d ∈ ds, isDigit d = true) : 38 ∉ ds := by
  intro hm
  have := h 38 hm
  simp [isDigit] at this

theorem isHexDigit_ne_amp {ds : Str} (h : ∀ d ∈ ds, isHexDigit d = true) : 38 ∉ ds := by
  intro hm
  have := h 38 hm
  simp [isHexDigit] at this

/-- A pattern that fails at the one `&` of a text leaves the text as it is. -/
theorem replaceAllFunc_single_amp {m : Str → Option Str} (hm : HeadOnly 38 m) (f : Str → Str)
    {t : Str} (ht : 38 ∉ t) (hnone : m (38 :: t) = none) :
    replaceAllFunc m f (38 :: t) = 38 :: t := by
  rw [replaceAllFunc_cons_none f hnone, replaceAllFunc_of_not_mem hm f t ht]

theorem entities_kinds : ∀ e ∈ entities,
    e = ([38, 35, 51, 52, 59], [34]) ∨ e = ([38, 35, 51, 57, 59], [39]) ∨
      (2 ≤ e.1.length ∧ e.1.take 2 ≠ [38, 35]) := by decide

theorem reLit_none_of_take {e : Str} (he : 2 ≤ e.length ∧ e.take 2 ≠ [38, 35]) (s : Str) :
    reLit e reEnd (38 :: 35 :: s) = none := by
  cases h : reLit e reEnd (38 :: 35 :: s) with
  | none => rfl
  | some r =>
    obtain ⟨t, ht, _⟩ := reLit_eq_some reEnd e _ r h
    have h2 : (38 :: 35 :: s).take 2 = (e ++ t).take 2 := by rw [ht]
    rw [List.take_append_of_le_length he.1] at h2
    exact absurd h2.symm he.2

/-- The named-entity loop leaves a numeric reference alone, unless it is `&#34;` or
`&#39;`, which the table lists. -/
theorem replaceEntities_numRef {order : List (Str × Str)} (ho : ∀ e ∈ order, e ∈ entities)
    {s : Str} (hs : 38 ∉ s) (h34 : ∀ r, s ≠ 51 :: 52 :: 59 :: r)
    (h39 : ∀ r, s ≠ 51 :: 57 :: 59 :: r) :
    replaceEntities order (38 :: 35 :: s) = 38 :: 35 :: s := by
  unfold replaceEntities
  apply foldl_fixed
  intro e he
  have hmem : 38 ∉ 35 :: s := by
    intro hm
    rcases List.mem_cons.mp hm with h | h
    · cases h
    · exact hs h
  show replaceAllFunc (reLit e.1 reEnd) (fun _ => e.2) (38 :: 35 :: s) = 38 :: 35 :: s
  refine replaceAllFunc_single_amp (headOnly_entity (ho e he)) _ hmem ?_
  rcases entities_kinds e (ho e he) with rfl | rfl | hk
  · cases h : reLit [38, 35, 51, 52, 59] reEnd (38 :: 35 :: s) with
    | none => rfl
    | some r =>
      obtain ⟨t, ht, _⟩ := reLit_eq_some reEnd _ _ r h
      simp only [List.cons_append, List.nil_append, List.cons.injEq, true_and] at ht
      exact absurd ht (h34 t)
  · cases h : reLit [38, 35, 51, 57, 59] reEnd (38 :: 35 :: s) with
    | none => rfl
    | some r =>
      obtain ⟨t, ht, _⟩ := reLit_eq_some reEnd _ _ r h
      simp only [List.cons_append, List.nil_append, List.cons.injEq, true_and] at ht
      exact absurd ht (h39 t)
  · exact reLit_none_of_take hk s
theorem sscanInt_of_parse {base : Nat} {ds : Str} {v : Nat} (hne : ds ≠ [])
    (hp : parseDigits base 0 ds = some v) :
    sscanInt base ds = if v < 2 ^ 63 then some v else none := by
  simp [sscanInt, hne, hp]

theorem findSubmatch_head {pat : Str → Option (Str × Str)} {b : Nat} {t cap rest : Str}
    (h : pat (b :: t) = some (cap, rest)) : findSubmatch pat (b :: t) = some cap := by
  simp [findSubmatch, findFirst, h]

/-- What the function of a numeric pass returns for a match with the digits `ds`. -/
theorem numericRepl_ref {pat : Str → Option (Str × Str)} {base b : Nat} {t ds rest : Str}
    {v : Nat} (h : pat (b :: t) = some (ds, rest)) (hne : ds ≠ [])
    (hp : parseDigits base 0 ds = some v) :
    numericRepl pat base (b :: t)
      = if 0 < v ∧ v < 1114112 then runeString v else b :: t := by
  unfold numericRepl
  rw [findSubmatch_head h]
  simp only []
  rw [sscanInt_of_parse hne hp]
  by_cases hv : v < 2 ^ 63
  · rw [if_pos hv]
  · have : ¬ (0 < v ∧ v < 1114112) := by omega
    rw [if_neg hv, if_neg this]

theorem decodeDecimal_decRef {ds : Str} {v : Nat} (hne : ds ≠ [])
    (hp : parseDigits 10 0 ds = some v) :
    decodeDecimal (38 :: 35 :: (ds ++ [59]))
      = if 0 < v ∧ v < 1114112 then runeString v else 38 :: 35 :: (ds ++ [59]) := by
  have hd := parseDigits_dec_digits ds 0 v hp
  have hre := re_decRef hne hd
  unfold decodeDecimal
  rw [replaceAllFunc_whole (m := fun s => (re s).map Prod.snd) _ (by simp [hre])]
  exact numericRepl_ref hre hne hp

theorem decodeHex_hexRef {x : Nat} (hx : x = 120 ∨ x = 88) {hs : Str} {v : Nat} (hne : hs ≠ [])
    (hp : parseDigits 16 0 hs = some v) :
    decodeHex (38 :: 35 :: x :: (hs ++ [59]))
      = if 0 < v ∧ v < 1114112 then runeString v else 38 :: 35 :: x :: (hs ++ [59]) := by
  have hd := parseDigits_hex_digits hs 0 v hp
  have hre := reHex_hexRef hx hne hd
  unfold decodeHex
  rw [replaceAllFunc_whole (m := fun s => (reHex s).map Prod.snd) _ (by simp [hre])]
  exact numericRepl_ref hre hne hp

/-- The hexadecimal pass leaves a decimal reference alone. -/
theorem decodeHex_decRef {ds : Str} (hne : ds ≠ []) (hd : ∀ d ∈ ds, isDigit d = true) :
    decodeHex (38 :: 35 :: (ds ++ [59])) = 38 :: 35 :: (ds ++ [59]) := by
  have hmem : 38 ∉ 35 :: (ds ++ [59]) := by
    have := isDigit_ne_amp hd
    simp [this]
  cases ds with
  | nil => exact absurd rfl hne
  | cons d ds =>
    have hdd : isDigit d = true := hd d (List.mem_cons_self d ds)
    have hne2 : d ≠ 120 ∧ d ≠ 88 := by
      simp only [isDigit, Bool.and_eq_true, decide_eq_true_eq] at hdd
      omega
    unfold decodeHex
    refine replaceAllFunc_single_amp (headOnly_map headOnly_reHex Prod.snd) _ hmem ?_
    show (reHex (38 :: 35 :: d :: (ds ++ [59]))).map Prod.snd = none
    rw [reHex_decRef_none hne2]
    rfl

/-- The decimal pass leaves a hexadecimal reference alone. -/
theorem decodeDecimal_hexRef {x : Nat} (hx : x = 120 ∨ x = 88) {hs : Str}
    (hd : ∀ d ∈ hs, isHexDigit d = true) :
    decodeDecimal (38 :: 35 :: x :: (hs ++ [59])) = 38 :: 35 :: x :: (hs ++ [59]) := by
  have hxa : x ≠ 38 := by omega
  have hmem : 38 ∉ 35 :: x :: (hs ++ [59]) := by
    have := isHexDigit_ne_amp hd
    simp [this, hxa.symm]
  have hxd : isDigit x = false := by
    rcases hx with rfl | rfl <;> decide
  unfold decodeDecimal
  refine replaceAllFunc_single_amp (headOnly_map headOnly_re Prod.snd) _ hmem ?_
  show (re (38 :: 35 :: x :: (hs ++ [59]))).map Prod.snd = none
  rw [re_hexRef_none hxd]
  rfl

/-- The hexadecimal pass leaves the encoding of one rune alone. -/
theorem decodeHex_runeString (v : Nat) : decodeHex (runeString v) = runeString v := by
  unfold runeString
  split
  · exact decodeHex_of_not_mem (by decide)
  · unfold utf8Encode
    split
    · unfold decodeHex
      have hnone : (fun s => (reHex s).map Prod.snd) [v] = none := by
        cases h : reHex [v] with
        | none => simp [h]
        | some r =>
          unfold reHex at h
          obtain ⟨t, ht, _⟩ := reLit_eq_some _ _ _ r h
          have h0 : ascii "&#" = [38, 35] := by decide
          rw [h0] at ht
          simp at ht
      rw [replaceAllFunc_cons_none _ hnone, replaceAllFunc_nil]
    · split
      · apply decodeHex_of_not_mem
        simp only [List.mem_cons, List.mem_singleton, List.not_mem_nil, or_false, not_or]
        omega
      · split
        · apply decodeHex_of_not_mem
          simp only [List.mem_cons, List.mem_singleton, List.not_mem_nil, or_false, not_or]
          omega
        · apply decodeHex_of_not_mem
          simp only [List.mem_cons, List.mem_singleton, List.not_mem_nil, or_false, not_or]
          omega

theorem decRef_ne_of_digits {ds : Str} (hd : ∀ d ∈ ds, isDigit d = true) {a b : Nat} {r : Str}
    (h : ds ++ [59] = a :: b :: 59 :: r) : ds = [a, b] := by
  match ds, h with
  | [], h => simp at h
  | [_], h => simp at h
  | [x, y], h =>
    simp only [List.cons_append, List.nil_append, List.cons.injEq] at h
    rw [h.1, h.2.1]
  | x :: y :: z :: t, h =>
    simp only [List.cons_append, List.cons.injEq] at h
    have hz : isDigit z = true := hd z (by simp)
    rw [h.2.2.1] at hz
    simp [isDigit] at hz

theorem parseDigits_ascii34 : parseDigits 10 0 [51, 52] = some 34 := by decide

theorem parseDigits_ascii39 : parseDigits 10 0 [51, 57] = some 39 := by decide

theorem mem_append_semicolon {ds : Str} (h : 38 ∉ ds) : 38 ∉ ds ++ [59] := by
  simp [h]

/-- The named-entity loop on a text that one entity of the table takes to `t1`, when
every other entity leaves it alone and all entities leave `t1` alone. -/
theorem replaceEntities_step {order : List (Str × Str)} (hp : order.Perm entities)
    (t0 t1 : Str)
    (h01 : ∀ e ∈ entities,
      stringsReplaceAll t0 e.1 e.2 = t0 ∨ stringsReplaceAll t0 e.1 e.2 = t1)
    (h1 : ∀ e ∈ entities, stringsReplaceAll t1 e.1 e.2 = t1)
    (hex : ∃ e ∈ entities, stringsReplaceAll t0 e.1 e.2 = t1) :
    replaceEntities order t0 = t1 := by
  unfold replaceEntities
  refine foldl_one_step _ t0 t1 order (fun e he => h01 e (hp.subset he))
    (fun e he => h1 e (hp.subset he)) ?_
  obtain ⟨e, he, hs⟩ := hex
  exact ⟨e, hp.symm.subset he, hs⟩

theorem replaceAllFunc_of_forall_none {m : Str → Option Str} (f : Str → Str) :
    ∀ s : Str, (∀ b ∈ s, ∀ t, m (b :: t) = none) → replaceAllFunc m f s = s
  | [], _ => replaceAllFunc_nil m f
  | b :: t, h => by
    rw [replaceAllFunc_cons_none f (h b (List.mem_cons_self b t) t),
      replaceAllFunc_of_forall_none f t (fun x hx => h x (List.mem_cons_of_mem _ hx))]

theorem headOnly_reScript : HeadOnly 60 reScript := by
  have h : ascii "<script" = 60 :: ascii "script" := by decide
  unfold reScript
  rw [h]
  exact headOnly_reLitFold_lt _ _

theorem headOnly_reStyle : HeadOnly 60 reStyle := by
  have h : ascii "<style" = 60 :: ascii "style" := by decide
  unfold reStyle
  rw [h]
  exact headOnly_reLitFold_lt _ _

theorem headOnly_reComment : HeadOnly 60 reComment := by
  have h : ascii "<!--" = 60 :: ascii "!--" := by decide
  unfold reComment
  rw [h]
  exact headOnly_reLit 60 _ _

theorem headOnly_reArticle : HeadOnly 60 reArticle := by
  have h : ascii "<article" = 60 :: ascii "article" := by decide
  unfold reArticle
  rw [h]
  exact headOnly_reLitFold_lt _ _

theorem headOnly_reMain : HeadOnly 60 reMain := by
  have h : ascii "<main" = 60 :: ascii "main" := by decide
  unfold reMain
  rw [h]
  exact headOnly_reLitFold_lt _ _

theorem headOnly_reDivClass : HeadOnly 60 reDivClass := by
  have h : ascii "<div" = 60 :: ascii "div" := by decide
  unfold reDivClass
  rw [h]
  exact headOnly_reLitFold_lt _ _

theorem headOnly_reDivId : HeadOnly 60 reDivId := by
  have h : ascii "<div" = 60 :: ascii "div" := by decide
  unfold reDivId
  rw [h]
  exact headOnly_reLitFold_lt _ _

theorem headOnly_reBody : HeadOnly 60 reBody := by
  have h : ascii "<body" = 60 :: ascii "body" := by decide
  unfold reBody
  rw [h]
  exact headOnly_reLitFold_lt _ _

theorem headOnly_reTag : HeadOnly 60 reTag := by
  have h : ascii "<" = [60] := by decide
  unfold reTag
  rw [h]
  exact headOnly_reLit 60 _ _

theorem headOnly_reBreak : HeadOnly 60 reBreak := by
  have h1 : ascii "<br" = 60 :: ascii "br" := by decide
  have h2 : ascii "<p" = 60 :: ascii "p" := by decide
  have h3 : ascii "</p>" = 60 :: ascii "/p>" := by decide
  intro s r h
  unfold reBreak at h
  rw [h1, h2, h3] at h
  split at h
  · rename_i r1 hr1
    exact headOnly_reLit 60 _ _ s r1 hr1
  · split at h
    · rename_i r2 hr2
      exact headOnly_reLit 60 _ _ s r2 hr2
    · exact headOnly_reLit 60 _ _ s r h

theorem stripNoise_of_not_mem {s : Str} (hs : 60 ∉ s) : stripNoise s = s := by
  unfold stripNoise replaceAll
  rw [replaceAllFunc_of_not_mem headOnly_reScript _ s hs,
    replaceAllFunc_of_not_mem headOnly_reStyle _ s hs,
    replaceAllFunc_of_not_mem headOnly_reComment _ s hs]

theorem findSubmatch_of_not_mem {pat : Str → Option (Str × Str)} (hp : HeadOnly 60 pat)
    {s : Str} (hs : 60 ∉ s) : findSubmatch pat s = none := by
  simp [findSubmatch, findFirst_of_not_mem hp s hs]

theorem selectRegion_of_not_mem {s : Str} (hs : 60 ∉ s) : selectRegion s = s := by
  simp [selectRegion, patterns, selectLoop, findSubmatch_of_not_mem headOnly_reArticle hs,
    findSubmatch_of_not_mem headOnly_reMain hs, findSubmatch_of_not_mem headOnly_reDivClass hs,
    findSubmatch_of_not_mem headOnly_reDivId hs, findSubmatch_of_not_mem headOnly_reBody hs]

theorem stripTags_of_not_mem {s : Str} (hs : 60 ∉ s) : stripTags s = s := by
  unfold stripTags replaceAll
  rw [replaceAllFunc_of_not_mem headOnly_reBreak _ s hs,
    replaceAllFunc_of_not_mem headOnly_reTag _ s hs]

theorem splitLines_of_not_mem : ∀ s : Str, 10 ∉ s → splitLines s = [s]
  | [], _ => rfl
  | b :: t, h => by
    have hb : b ≠ 10 := fun hb => h (hb ▸ List.mem_cons_self b t)
    simp [splitLines, hb, splitLines_of_not_mem t (fun hx => h (List.mem_cons_of_mem _ hx))]

theorem spaceRuneLen_of_ascii {b : Nat} (h1 : 33 ≤ b) (h2 : b ≤ 126) (t : Str) :
    spaceRuneLen (b :: t) = 0 := by
  have hw : ¬ (b = 9 ∨ b = 10 ∨ b = 11 ∨ b = 12 ∨ b = 13 ∨ b = 32) := by omega
  simp only [spaceRuneLen, if_neg hw]
  cases t with
  | nil => rfl
  | cons c t2 =>
    have h194 : ¬ (b = 194 ∧ (c = 133 ∨ c = 160)) := by omega
    simp only [if_neg h194]
    cases t2 with
    | nil => rfl
    | cons d t3 =>
      have ha : ¬ (b = 225 ∧ c = 154 ∧ d = 128) := by omega
      have hb : ¬ (b = 226 ∧ c = 128 ∧ ((128 ≤ d ∧ d ≤ 138) ∨ d = 168 ∨ d = 169 ∨ d = 175)) := by
        omega
      have hc : ¬ (b = 226 ∧ c = 129 ∧ d = 159) := by omega
      have hd : ¬ (b = 227 ∧ c = 128 ∧ d = 128) := by omega
      simp only [if_neg ha, if_neg hb, if_neg hc, if_neg hd]

theorem spaceRuneLenRev_of_ascii {d : Nat} (h1 : 33 ≤ d) (h2 : d ≤ 126) (t : Str) :
    spaceRuneLenRev (d :: t) = 0 := by
  have hw : ¬ (d = 9 ∨ d = 10 ∨ d = 11 ∨ d = 12 ∨ d = 13 ∨ d = 32) := by omega
  simp only [spaceRuneLenRev, if_neg hw]
  cases t with
  | nil => rfl
  | cons c t2 =>
    have h194 : ¬ (c = 194 ∧ (d = 133 ∨ d = 160)) := by omega
    simp only [if_neg h194]
    cases t2 with
    | nil => rfl
    | cons b t3 =>
      have ha : ¬ (b = 225 ∧ c = 154 ∧ d = 128) := by omega
      have hb : ¬ (b = 226 ∧ c = 128 ∧ ((128 ≤ d ∧ d ≤ 138) ∨ d = 168 ∨ d = 169 ∨ d = 175)) := by
        omega
      have hc : ¬ (b = 226 ∧ c = 129 ∧ d = 159) := by omega
      have hd : ¬ (b = 227 ∧ c = 128 ∧ d = 128) := by omega
      simp only [if_neg ha, if_neg hb, if_neg hc, if_neg hd]

theorem trimAux_of_zero {len : Str → Nat} {s : Str} (h : len s = 0) : trimAux len 0 s = s := by
  cases s with
  | nil => rfl
  | cons b t => simp [trimAux, h]

theorem plainByte_bounds {b : Nat} (h : plainByte b = true) :
    33 ≤ b ∧ b ≤ 126 ∧ b ≠ 38 ∧ b ≠ 60 := by
  simpa [plainByte, and_assoc] using h

theorem trimSpace_of_plain {s : Str} (h : ∀ b ∈ s, plainByte b = true) : trimSpace s = s := by
  have hl : trimAux spaceRuneLen 0 s = s := by
    cases s with
    | nil => rfl
    | cons b t =>
      have hb := plainByte_bounds (h b (List.mem_cons_self b t))
      exact trimAux_of_zero (spaceRuneLen_of_ascii hb.1 hb.2.1 t)
  have hr : trimAux spaceRuneLenRev 0 s.reverse = s.reverse := by
    cases hrev : s.reverse with
    | nil => rfl
    | cons d t =>
      have hd : d ∈ s := by
        rw [← List.mem_reverse, hrev]
        exact List.mem_cons_self d t
      have hb := plainByte_bounds (h d hd)
      exact trimAux_of_zero (spaceRuneLenRev_of_ascii hb.1 hb.2.1 t)
  unfold trimSpace
  rw [hl, hr, List.reverse_reverse]

theorem reSpaces_of_not_space {b : Nat} (hb : isReSpace b = false) (t : Str) :
    reSpaces (b :: t) = none := by
  simp [reSpaces, rePlus, hb]

theorem normalizeLine_of_plain {s : Str} (h : ∀ b ∈ s, plainByte b = true) :
    normalizeLine s = s := by
  unfold normalizeLine replaceAll
  rw [trimSpace_of_plain h]
  apply replaceAllFunc_of_forall_none
  intro b hb t
  have hp := plainByte_bounds (h b hb)
  apply reSpaces_of_not_space
  simp only [isReSpace, Bool.or_eq_false_iff, beq_eq_false_iff_ne, ne_eq]
  omega

/-- The extraction of a text made of plain bytes only: the text is its own single line. -/
theorem extractTextFromHTML_of_plain {order : List (Str × Str)}
    (ho : ∀ e ∈ order, e ∈ entities) {s : Str} (h : ∀ b ∈ s, plainByte b = true) :
    extractTextFromHTML order s = if 10 < s.length then s.take 50000 else [] := by
  have h60 : 60 ∉ s := fun hm => (plainByte_bounds (h 60 hm)).2.2.2 rfl
  have h38 : 38 ∉ s := fun hm => (plainByte_bounds (h 38 hm)).2.2.1 rfl
  have h10 : 10 ∉ s := fun hm => by have := (plainByte_bounds (h 10 hm)).1; omega
  unfold extractTextFromHTML joinedText
  rw [stripNoise_of_not_mem h60, selectRegion_of_not_mem h60, stripTags_of_not_mem h60,
    decodeHTMLEntities_of_not_mem ho h38, splitLines_of_not_mem s h10]
  simp only [cleanLines, normalizeLine_of_plain h]
  by_cases hlen : 10 < s.length
  · have hne : s ≠ [] := by
      intro hs
      rw [hs] at hlen
      simp at hlen
    have hc : s ≠ [] ∧ s.length > 10 := ⟨hne, hlen⟩
    rw [if_pos hc, if_pos hlen]
    simp only [stringsJoin, limitSize]
    split
    · rfl
    · rw [List.take_of_length_le (by omega)]
  · have hc : ¬ (s ≠ [] ∧ s.length > 10) := fun hc => hlen hc.2
    rw [if_neg hc, if_neg hlen]
    rfl
/-! ## The content-region selector -/

theorem tagRun_append : ∀ (s t : Str) (q : TagState),
    tagRun q (s ++ t) = (tagRun q s).bind (fun r => tagRun r t)
  | [], _, _ => rfl
  | b :: s, t, q => by
    simp only [List.cons_append, tagRun]
    cases tagStep q b with
    | none => rfl
    | some r => exact tagRun_append s t r

theorem tagStep_mono {q q2 r : TagState} {b : Nat} (h : q2.rank ≤ q.rank)
    (hs : tagStep q b = some r) : ∃ r2, tagStep q2 b = some r2 ∧ r2.rank ≤ r.rank := by
  by_cases h60 : b = 60
  · subst h60
    cases q <;> cases q2 <;> simp only [TagState.rank] at h <;> (try omega) <;>
      simp [tagStep] at hs ⊢ <;> subst hs <;> simp [TagState.rank]
  · by_cases h62 : b = 62
    · subst h62
      cases q <;> cases q2 <;> simp only [TagState.rank] at h <;> (try omega) <;>
        simp [tagStep] at hs ⊢ <;> subst hs <;> simp [TagState.rank]
    · cases q <;> cases q2 <;> simp only [TagState.rank] at h <;> (try omega) <;>
        simp [tagStep, h60, h62] at hs ⊢ <;> subst hs <;> simp [TagState.rank]

theorem tagRun_mono : ∀ s : Str, Sim s s
  | [] => fun q q2 r h hr => by
    simp only [tagRun, Option.some.injEq] at hr
    exact ⟨q2, rfl, hr ▸ h⟩
  | b :: t => fun q q2 r h hr => by
    simp only [tagRun] at hr ⊢
    cases hq : tagStep q b with
    | none => simp [hq] at hr
    | some q1 =>
      rw [hq] at hr
      obtain ⟨r2, hr2, hle⟩ := tagStep_mono h hq
      rw [hr2]
      exact tagRun_mono t q1 r2 r hle hr

theorem tagStep_of_ne {q : TagState} {b : Nat} (hb : b ≠ 62) :
    ∃ r, tagStep q b = some r ∧ q.rank ≤ r.rank ∧ (b ≠ 60 → r ≠ .opened) := by
  cases q <;> simp only [tagStep, hb, if_false]
  · by_cases h60 : b = 60
    · simp [h60, TagState.rank]
    · simp [h60, TagState.rank]
  · simp [TagState.rank]
  · simp [TagState.rank]

/-- A text without `>` never ends a scan. -/
theorem tagRun_of_not_mem : ∀ (s : Str) (q : TagState), 62 ∉ s → ∃ r, tagRun q s = some r
  | [], q, _ => ⟨q, rfl⟩
  | b :: t, q, h => by
    have hb : b ≠ 62 := fun hb => h (hb ▸ List.mem_cons_self b t)
    obtain ⟨r, hr, _⟩ := tagStep_of_ne (q := q) hb
    simp only [tagRun, hr]
    exact tagRun_of_not_mem t r (fun hx => h (List.mem_cons_of_mem _ hx))

theorem tagRun_barred : ∀ (s : Str), 62 ∉ s → tagRun .barred s = some .barred
  | [], _ => rfl
  | b :: t, h => by
    have hb : b ≠ 62 := fun hb => h (hb ▸ List.mem_cons_self b t)
    simp only [tagRun, tagStep, hb, if_false]
    exact tagRun_barred t (fun hx => h (List.mem_cons_of_mem _ hx))

/-- A text with a tag-like span ends the scan, whatever the state it starts from. -/
theorem tagRun_of_tagLike {s : Str} (h : TagLike s) (q : TagState) : tagRun q s = none := by
  obtain ⟨pre, mid, post, rfl, hne, hmid⟩ := h
  rw [List.append_assoc, tagRun_append]
  cases hpre : tagRun q pre with
  | none => rfl
  | some q1 =>
    simp only [Option.some_bind]
    cases mid with
    | nil => exact absurd rfl hne
    | cons m0 mid =>
      have hm0 : m0 ≠ 62 := fun hb => hmid (hb ▸ List.mem_cons_self m0 mid)
      have hmid2 : 62 ∉ mid := fun hx => hmid (List.mem_cons_of_mem _ hx)
      have hb : tagRun .barred (mid ++ 62 :: post) = none := by
        rw [tagRun_append, tagRun_barred mid hmid2]
        simp [tagRun, tagStep]
      cases q1 <;> simp [tagRun, tagStep, hm0, hb]
/-- Induction along the scan of `replaceAllFunc`. -/
theorem replaceAllFunc_induction {m : Str → Option Str} {f : Str → Str}
    (P : Str → Str → Prop) (hnil : P [] [])
    (hcopy : ∀ b t out, m (b :: t) = none → P t out → P (b :: t) (b :: out))
    (hrepl : ∀ b t rest out, m (b :: t) = some rest →
      P (t.drop ((b :: t).length - rest.length - 1)) out →
      P (b :: t) (f ((b :: t).take ((b :: t).length - rest.length)) ++ out)) :
    ∀ s : Str, P s (replaceAllFunc m f s) := by
  have key : ∀ n : Nat, ∀ s : Str, s.length ≤ n → P s (replaceAllFunc m f s) := by
    intro n
    induction n with
    | zero =>
      intro s hs
      have : s = [] := List.length_eq_zero.mp (Nat.le_zero.mp hs)
      rw [this, replaceAllFunc_nil]
      exact hnil
    | succ n ih =>
      intro s hs
      cases s with
      | nil => rw [replaceAllFunc_nil]; exact hnil
      | cons b t =>
        have ht : t.length ≤ n := by simpa using hs
        cases hm : m (b :: t) with
        | none =>
          rw [replaceAllFunc_cons_none f hm]
          exact hcopy b t _ hm (ih t ht)
        | some rest =>
          rw [replaceAllFunc_cons_some f hm]
          refine hrepl b t rest _ hm (ih _ ?_)
          rw [List.length_drop]
          omega
  intro s
  exact key s.length s (Nat.le_refl _)

/-- The bytes of the output of `ReplaceAllString` are bytes of the input or of the
replacement. -/
theorem mem_replaceAll {m : Str → Option Str} {repl : Str} {x : Nat} :
    ∀ s : Str, x ∈ replaceAll m repl s → x ∈ s ∨ x ∈ repl := by
  intro s
  unfold replaceAll
  refine replaceAllFunc_induction (fun s out => x ∈ out → x ∈ s ∨ x ∈ repl) ?_ ?_ ?_ s
  · intro h; cases h
  · intro b t out _ ih h
    rcases List.mem_cons.mp h with rfl | h
    · exact Or.inl (List.mem_cons_self _ _)
    · rcases ih h with h | h
      · exact Or.inl (List.mem_cons_of_mem _ h)
      · exact Or.inr h
  · intro b t rest out _ ih h
    rcases List.mem_append.mp h with h | h
    · exact Or.inr h
    · rcases ih h with h | h
      · exact Or.inl (List.mem_cons_of_mem _ (List.mem_of_mem_drop h))
      · exact Or.inr h

theorem not_mem_replaceAll {m : Str → Option Str} {repl : Str} {x : Nat} {s : Str}
    (hs : x ∉ s) (hr : x ∉ repl) : x ∉ replaceAll m repl s := by
  intro h
  rcases mem_replaceAll s h with h | h
  · exact hs h
  · exact hr h

theorem reStar_notGt_none : ∀ s : Str, reStar notGt (reLit [62] reEnd) s = none → 62 ∉ s
  | [], _ => by simp
  | b :: t, h => by
    simp only [reStar] at h
    by_cases hb : b = 62
    · subst hb
      simp [notGt, reLit, byteExact, reEnd] at h
    · have hp : notGt b = true := by simp [notGt, hb]
      rw [if_pos hp] at h
      cases hr : reStar notGt (reLit [62] reEnd) t with
      | none =>
        have := reStar_notGt_none t hr
        intro hm
        rcases List.mem_cons.mp hm with h1 | h1
        · exact hb h1.symm
        · exact this h1
      | some r => simp [hr] at h

/-- Where the tag pattern fails at a `<`, the `<` is the last byte, or a `>` follows it
at once, or no `>` follows it at all. -/
theorem reTag_none {t : Str} (h : reTag (60 :: t) = none) :
    (∃ t2, t = 62 :: t2) ∨ 62 ∉ t := by
  have h0 : ascii "<" = [60] := by decide
  have h1 : ascii ">" = [62] := by decide
  unfold reTag at h
  rw [h0, h1, reLit_cons, reLit_nil] at h
  cases t with
  | nil => exact Or.inr (by simp)
  | cons c t2 =>
    by_cases hc : c = 62
    · exact Or.inl ⟨t2, by rw [hc]⟩
    · right
      have hp : notGt c = true := by simp [notGt, hc]
      simp only [rePlus, hp, if_true] at h
      have := reStar_notGt_none t2 h
      intro hm
      rcases List.mem_cons.mp hm with h1 | h1
      · exact hc h1.symm
      · exact this h1

/-- The text left by the replacement of the tags stands the scan for tag-like spans. -/
theorem tagRun_replaceAll_reTag (s : Str) :
    ∃ r, tagRun .clear (replaceAll reTag [32] s) = some r := by
  have key := replaceAllFunc_induction (m := reTag) (f := fun _ => [32])
    (fun s out => (∃ r, tagRun .clear out = some r) ∧
      (∀ t2, s = 62 :: t2 → ∃ r, tagRun .opened out = some r) ∧ (62 ∉ s → 62 ∉ out))
    ?_ ?_ ?_ s
  · exact key.1
  · exact ⟨⟨_, rfl⟩, fun t2 h => (by cases h), fun h => h⟩
  · intro b t out hm ih
    refine ⟨?_, ?_, ?_⟩
    · by_cases hb : b = 60
      · subst hb
        simp only [tagRun, tagStep, if_true]
        rcases reTag_none hm with ⟨t2, ht2⟩ | hno
        · exact ih.2.1 t2 ht2
        · exact tagRun_of_not_mem out _ (ih.2.2 hno)
      · simp only [tagRun, tagStep, hb, if_false]
        exact ih.1
    · intro t2 h
      simp only [List.cons.injEq] at h
      simp only [tagRun, tagStep, h.1, if_true]
      exact ih.1
    · intro h hm2
      rcases List.mem_cons.mp hm2 with h1 | h1
      · exact h (h1 ▸ List.mem_cons_self _ _)
      · exact ih.2.2 (fun hx => h (List.mem_cons_of_mem _ hx)) h1
  · intro b t rest out hm ih
    obtain ⟨t1, ht1⟩ := headOnly_reTag _ _ hm
    simp only [List.cons.injEq] at ht1
    refine ⟨?_, ?_, ?_⟩
    · simp only [List.singleton_append, tagRun, tagStep]
      exact ih.1
    · intro t2 h
      simp only [List.cons.injEq] at h
      omega
    · intro h hm2
      rcases List.mem_append.mp hm2 with h1 | h1
      · simp at h1
      · exact ih.2.2 (fun hx => h (List.mem_cons_of_mem _ (List.mem_of_mem_drop hx))) h1
/-! ## Texts that stand the scan wherever another does -/

theorem Sim.append {s1 s2 t1 t2 : Str} (hs : Sim s1 s2) (ht : Sim t1 t2) :
    Sim (s1 ++ t1) (s2 ++ t2) := by
  intro q q2 r hle hr
  rw [tagRun_append] at hr
  cases hq : tagRun q s1 with
  | none => simp [hq] at hr
  | some q1 =>
    rw [hq] at hr
    simp only [Option.some_bind] at hr
    obtain ⟨p1, hp1, hle1⟩ := hs q q2 q1 hle hq
    obtain ⟨p2, hp2, hle2⟩ := ht q1 p1 r hle1 hr
    exact ⟨p2, by rw [tagRun_append, hp1]; exact hp2, hle2⟩

theorem Sim.trans {s1 s2 s3 : Str} (h12 : Sim s1 s2) (h23 : Sim s2 s3) : Sim s1 s3 := by
  intro q q2 r hle hr
  obtain ⟨p1, hp1, hle1⟩ := h12 q q2 r hle hr
  obtain ⟨p2, hp2, hle2⟩ := h23 q2 q2 p1 (Nat.le_refl _) hp1
  exact ⟨p2, hp2, Nat.le_trans hle2 hle1⟩

theorem tagStep_plain {b : Nat} (h : b ≠ 60 ∧ b ≠ 62) (q : TagState) :
    tagStep q b = some (if q = .clear then .clear else .barred) := by
  cases q <;> simp [tagStep, h.1, h.2]

/-- The scan of bytes other than `<` and `>`. -/
theorem tagRun_plain : ∀ (w : Str) (q : TagState), w ≠ [] → (∀ b ∈ w, b ≠ 60 ∧ b ≠ 62) →
    tagRun q w = some (if q = .clear then .clear else .barred)
  | [], _, hne, _ => absurd rfl hne
  | [b], q, _, h => by
    simp only [tagRun, tagStep_plain (h b (List.mem_cons_self b [])) q]
  | b :: c :: t, q, _, h => by
    have ih := tagRun_plain (c :: t) (if q = .clear then .clear else .barred) (by simp)
      (fun x hx => h x (List.mem_cons_of_mem _ hx))
    simp only [tagRun, tagStep_plain (h b (List.mem_cons_self b _)) q] at ih ⊢
    rw [ih]
    cases q <;> simp

theorem Sim.erase {w : Str} (h : ∀ b ∈ w, b ≠ 60 ∧ b ≠ 62) : Sim w [] := by
  intro q q2 r hle hr
  refine ⟨q2, rfl, ?_⟩
  cases w with
  | nil =>
    simp only [tagRun, Option.some.injEq] at hr
    exact hr ▸ hle
  | cons b t =>
    rw [tagRun_plain (b :: t) q (by simp) h] at hr
    simp only [Option.some.injEq] at hr
    subst hr
    cases q <;> cases q2 <;> simp [TagState.rank] at hle ⊢

theorem Sim.plain {w1 w2 : Str} (hne1 : w1 ≠ []) (hne2 : w2 ≠ [])
    (h1 : ∀ b ∈ w1, b ≠ 60 ∧ b ≠ 62) (h2 : ∀ b ∈ w2, b ≠ 60 ∧ b ≠ 62) : Sim w1 w2 := by
  intro q q2 r hle hr
  rw [tagRun_plain w1 q hne1 h1] at hr
  simp only [Option.some.injEq] at hr
  subst hr
  refine ⟨_, tagRun_plain w2 q2 hne2 h2, ?_⟩
  cases q <;> cases q2 <;> simp [TagState.rank] at hle ⊢

theorem tagRun_barred_eq : ∀ (s : Str) (r : TagState), tagRun .barred s = some r → r = .barred
  | [], r, h => by
    simp only [tagRun, Option.some.injEq] at h
    exact h.symm
  | b :: t, r, h => by
    simp only [tagRun, tagStep] at h
    by_cases hb : b = 62
    · simp [hb] at h
    · simp only [hb, if_false] at h
      exact tagRun_barred_eq t r h

theorem rank_le_of_tagRun {q r : TagState} {s : Str} (hq : q ≠ .opened)
    (h : tagRun q s = some r) : r = .opened ∨ q.rank ≤ r.rank := by
  cases q with
  | clear => exact Or.inr (Nat.zero_le _)
  | opened => exact absurd rfl hq
  | barred => exact Or.inr (by rw [tagRun_barred_eq s r h])

/-- After a newline the scan is not in the state `opened`. -/
theorem tagRun_newline {q r : TagState} {s : Str} (h : tagRun q (s ++ [10]) = some r) :
    r ≠ .opened ∧ ∃ r0, tagRun q s = some r0 := by
  rw [tagRun_append] at h
  cases hq : tagRun q s with
  | none => simp [hq] at h
  | some r0 =>
    rw [hq] at h
    refine ⟨?_, r0, rfl⟩
    cases r0 <;> simp [tagRun, tagStep] at h <;> subst h <;> simp

theorem tagRun_newline2 {q r : TagState} {s : Str} (h : tagRun q (s ++ [10, 10]) = some r) :
    r ≠ .opened := by
  have : s ++ [10, 10] = (s ++ [10]) ++ [10] := by simp
  rw [this] at h
  exact (tagRun_newline h).1
/-! ## The normalization of a line -/

theorem trimAux_skip (len : Str → Nat) :
    ∀ (s : Str) (k : Nat), trimAux len k s = trimAux len 0 (s.drop k)
  | [], k => by simp [trimAux]
  | _ :: _, 0 => by simp
  | _ :: t, k + 1 => by
    simp only [trimAux, List.drop_succ_cons]
    exact trimAux_skip len t k

/-- What the trimming of one side removes is a string of runes of `len`. -/
theorem trimAux_spec {len : Str → Nat}
    (hlen : ∀ s n, len s = n + 1 → ∀ x ∈ s.take (n + 1), x ≠ 60 ∧ x ≠ 62) :
    ∀ s : Str, ∃ pre, s = pre ++ trimAux len 0 s ∧ ∀ x ∈ pre, x ≠ 60 ∧ x ≠ 62 := by
  have key : ∀ n : Nat, ∀ s : Str, s.length ≤ n →
      ∃ pre, s = pre ++ trimAux len 0 s ∧ ∀ x ∈ pre, x ≠ 60 ∧ x ≠ 62 := by
    intro n
    induction n with
    | zero =>
      intro s hs
      have : s = [] := List.length_eq_zero.mp (Nat.le_zero.mp hs)
      exact ⟨[], by rw [this]; rfl, by simp⟩
    | succ n ih =>
      intro s hs
      cases s with
      | nil => exact ⟨[], rfl, by simp⟩
      | cons b t =>
        cases hl : len (b :: t) with
        | zero => exact ⟨[], by simp [trimAux, hl], by simp⟩
        | succ k =>
          have ht : (t.drop k).length ≤ n := by
            rw [List.length_drop]
            simp only [List.length_cons] at hs
            omega
          obtain ⟨pre, hpre, hnb⟩ := ih (t.drop k) ht
          refine ⟨(b :: t).take (k + 1) ++ pre, ?_, ?_⟩
          · have h1 : trimAux len 0 (b :: t) = trimAux len 0 (t.drop k) := by
              simp only [trimAux, hl]
              exact trimAux_skip len t k
            rw [h1, List.append_assoc, ← hpre]
            simp
          · intro x hx
            rcases List.mem_append.mp hx with h | h
            · exact hlen _ _ hl x h
            · exact hnb x h
  intro s
  exact key s.length s (Nat.le_refl _)

theorem spaceRuneLen_plain : ∀ s n, spaceRuneLen s = n + 1 →
    ∀ x ∈ s.take (n + 1), x ≠ 60 ∧ x ≠ 62 := by
  intro s n h
  cases s with
  | nil => simp [spaceRuneLen] at h
  | cons b t =>
    simp only [spaceRuneLen] at h
    split at h
    · have hn : n = 0 := by omega
      subst hn
      intro x hx
      simp only [List.take_succ_cons, List.take_zero, List.mem_singleton] at hx
      omega
    · cases t with
      | nil => simp at h
      | cons c t2 =>
        simp only at h
        split at h
        · have hn : n = 1 := by omega
          subst hn
          intro x hx
          simp only [List.take_succ_cons, List.take_zero, List.mem_cons, List.mem_singleton,
            List.not_mem_nil, or_false] at hx
          omega
        · cases t2 with
          | nil => simp at h
          | cons d t3 =>
            simp only at h
            have hcases : (b = 225 ∧ c = 154 ∧ d = 128) ∨
                (b = 226 ∧ c = 128 ∧ ((128 ≤ d ∧ d ≤ 138) ∨ d = 168 ∨ d = 169 ∨ d = 175)) ∨
                (b = 226 ∧ c = 129 ∧ d = 159) ∨ (b = 227 ∧ c = 128 ∧ d = 128) := by
              by_contra hc
              simp only [not_or] at hc
              rw [if_neg hc.1, if_neg hc.2.1, if_neg hc.2.2.1, if_neg hc.2.2.2] at h
              omega
            have hn : n = 2 := by
              split at h
              · omega
              · split at h
                · omega
                · split at h
                  · omega
                  · split at h
                    · omega
                    · omega
            subst hn
            intro x hx
            simp only [List.take_succ_cons, List.take_zero, List.mem_cons, List.mem_singleton,
              List.not_mem_nil, or_false] at hx
            omega

theorem spaceRuneLenRev_plain : ∀ s n, spaceRuneLenRev s = n + 1 →
    ∀ x ∈ s.take (n + 1), x ≠ 60 ∧ x ≠ 62 := by
  intro s n h
  cases s with
  | nil => simp [spaceRuneLenRev] at h
  | cons d t =>
    simp only [spaceRuneLenRev] at h
    split at h
    · have hn : n = 0 := by omega
      subst hn
      intro x hx
      simp only [List.take_succ_cons, List.take_zero, List.mem_singleton] at hx
      omega
    · cases t with
      | nil => simp at h
      | cons c t2 =>
        simp only at h
        split at h
        · have hn : n = 1 := by omega
          subst hn
          intro x hx
          simp only [List.take_succ_cons, List.take_zero, List.mem_cons, List.mem_singleton,
            List.not_mem_nil, or_false] at hx
          omega
        · cases t2 with
          | nil => simp at h
          | cons b t3 =>
            simp only at h
            have hcases : (b = 225 ∧ c = 154 ∧ d = 128) ∨
                (b = 226 ∧ c = 128 ∧ ((128 ≤ d ∧ d ≤ 138) ∨ d = 168 ∨ d = 169 ∨ d = 175)) ∨
                (b = 226 ∧ c = 129 ∧ d = 159) ∨ (b = 227 ∧ c = 128 ∧ d = 128) := by
              by_contra hc
              simp only [not_or] at hc
              rw [if_neg hc.1, if_neg hc.2.1, if_neg hc.2.2.1, if_neg hc.2.2.2] at h
              omega
            have hn : n = 2 := by
              split at h
              · omega
              · split at h
                · omega
                · split at h
                  · omega
                  · split at h
                    · omega
                    · omega
            subst hn
            intro x hx
            simp only [List.take_succ_cons, List.take_zero, List.mem_cons, List.mem_singleton,
              List.not_mem_nil, or_false] at hx
            omega

/-- Trimming removes a prefix and a suffix without `<` and `>`. -/
theorem trimSpace_spec (s : Str) :
    ∃ pre post, s = pre ++ trimSpace s ++ post ∧
      (∀ x ∈ pre, x ≠ 60 ∧ x ≠ 62) ∧ (∀ x ∈ post, x ≠ 60 ∧ x ≠ 62) := by
  obtain ⟨pre, hpre, hnb⟩ := trimAux_spec spaceRuneLen_plain s
  obtain ⟨pre2, hpre2, hnb2⟩ :=
    trimAux_spec spaceRuneLenRev_plain (trimAux spaceRuneLen 0 s).reverse
  refine ⟨pre, pre2.reverse, ?_, hnb, fun x hx => hnb2 x (List.mem_reverse.mp hx)⟩
  have h2 : trimAux spaceRuneLen 0 s = trimSpace s ++ pre2.reverse := by
    have := congrArg List.reverse hpre2
    rw [List.reverse_reverse, List.reverse_append] at this
    exact this
  rw [List.append_assoc, ← h2]
  exact hpre

theorem Sim.trimSpace (s : Str) : Sim s (trimSpace s) := by
  obtain ⟨pre, post, hs, hpre, hpost⟩ := trimSpace_spec s
  have h : Sim (pre ++ GoNews.trimSpace s ++ post) ([] ++ GoNews.trimSpace s ++ []) :=
    ((Sim.erase hpre).append (tagRun_mono _)).append (Sim.erase hpost)
  rw [← hs] at h
  simpa using h
theorem reStar_reEnd (p : Nat → Bool) : ∀ (s rest : Str), reStar p reEnd s = some rest →
    ∃ w, s = w ++ rest ∧ ∀ x ∈ w, p x = true
  | [], rest, h => by
    simp only [reStar, reEnd, Option.some.injEq] at h
    exact ⟨[], by simp [h], by simp⟩
  | b :: t, rest, h => by
    simp only [reStar] at h
    by_cases hb : p b = true
    · rw [if_pos hb] at h
      cases hr : reStar p reEnd t with
      | none =>
        rw [hr] at h
        simp only [reEnd, Option.some.injEq] at h
        exact ⟨[], by simp [h], by simp⟩
      | some r =>
        rw [hr] at h
        simp only [Option.some.injEq] at h
        subst h
        obtain ⟨w, hw, hp⟩ := reStar_reEnd p t r hr
        refine ⟨b :: w, by rw [hw]; rfl, ?_⟩
        intro x hx
        rcases List.mem_cons.mp hx with rfl | hx
        · exact hb
        · exact hp x hx
    · rw [if_neg hb] at h
      simp only [reEnd, Option.some.injEq] at h
      exact ⟨[], by simp [h], by simp⟩

/-- A match of `\s+` is a non-empty run of white space. -/
theorem reSpaces_spec {b : Nat} {t rest : Str} (h : reSpaces (b :: t) = some rest) :
    ∃ w, t = w ++ rest ∧ ∀ x ∈ b :: w, isReSpace x = true := by
  simp only [reSpaces, rePlus] at h
  by_cases hb : isReSpace b = true
  · rw [if_pos hb] at h
    obtain ⟨w, hw, hp⟩ := reStar_reEnd isReSpace t rest h
    refine ⟨w, hw, ?_⟩
    intro x hx
    rcases List.mem_cons.mp hx with rfl | hx
    · exact hb
    · exact hp x hx
  · rw [if_neg hb] at h
    cases h

theorem isReSpace_plain {x : Nat} (h : isReSpace x = true) : x ≠ 60 ∧ x ≠ 62 := by
  simp only [isReSpace, Bool.or_eq_true, beq_iff_eq] at h
  omega

theorem Sim.collapse (s : Str) : Sim s (replaceAll reSpaces [32] s) := by
  unfold replaceAll
  refine replaceAllFunc_induction (fun s out => Sim s out) ?_ ?_ ?_ s
  · exact tagRun_mono []
  · intro b t out _ ih
    exact (tagRun_mono [b]).append ih
  · intro b t rest out hm ih
    obtain ⟨w, hw, hp⟩ := reSpaces_spec hm
    have hdrop : t.drop ((b :: t).length - rest.length - 1) = rest := by
      rw [hw]
      simp only [List.length_cons, List.length_append]
      have : w.length + rest.length + 1 - rest.length - 1 = w.length := by omega
      rw [this, List.drop_left]
    rw [hdrop] at ih
    have h1 : Sim (b :: w) [32] :=
      Sim.plain (by simp) (by simp) (fun x hx => isReSpace_plain (hp x hx)) (by simp)
    have h2 := h1.append ih
    rw [hw]
    exact h2

theorem Sim.normalizeLine (s : Str) : Sim s (normalizeLine s) :=
  (Sim.trimSpace s).trans (Sim.collapse _)

/-! ## The lines -/

theorem splitLines_ne_nil : ∀ s : Str, splitLines s ≠ []
  | [] => by simp [splitLines]
  | b :: t => by
    simp only [splitLines]
    split
    · simp
    · split <;> simp

theorem stringsJoin_cons_cons (sep : Str) (b : Nat) (l : Str) (ls : List Str) :
    stringsJoin sep ((b :: l) :: ls) = b :: stringsJoin sep (l :: ls) := by
  cases ls with
  | nil => rfl
  | cons l2 ls => simp [stringsJoin]

/-- Joining the lines of a text by a newline gives the text back. -/
theorem stringsJoin_splitLines : ∀ s : Str, stringsJoin [10] (splitLines s) = s
  | [] => rfl
  | b :: t => by
    have ih := stringsJoin_splitLines t
    simp only [splitLines]
    cases hl : splitLines t with
    | nil => exact absurd hl (splitLines_ne_nil t)
    | cons l ls =>
      rw [hl] at ih
      split
      · rename_i hb
        rw [hb]
        simp [stringsJoin, ih]
      · simp only
        rw [stringsJoin_cons_cons, ih]

/-- The scan of the clean lines joined by two newlines succeeds when the scan of the
lines joined by one newline does. -/
theorem tagRun_cleanLines : ∀ (L : List Str) (q q2 : TagState), q2.rank ≤ q.rank →
    q ≠ .opened → q2 ≠ .opened → (∃ r, tagRun q (stringsJoin [10] L) = some r) →
    ∃ r2, tagRun q2 (stringsJoin [10, 10] (cleanLines L)) = some r2
  | [], _, q2, _, _, _, _ => ⟨q2, rfl⟩
  | [a], q, q2, hle, _, _, ⟨r, hr⟩ => by
    simp only [cleanLines]
    split
    · obtain ⟨r2, hr2, _⟩ := Sim.normalizeLine a q q2 r hle hr
      exact ⟨r2, hr2⟩
    · exact ⟨q2, rfl⟩
  | a :: b :: rest, q, q2, hle, hq, hq2, ⟨r, hr⟩ => by
    have hj : stringsJoin [10] (a :: b :: rest) = (a ++ [10]) ++ stringsJoin [10] (b :: rest) := by
      simp [stringsJoin]
    rw [hj, tagRun_append] at hr
    cases hq1 : tagRun q (a ++ [10]) with
    | none => simp [hq1] at hr
    | some q1 =>
      rw [hq1] at hr
      simp only [Option.some_bind] at hr
      obtain ⟨hq1o, r0, hr0⟩ := tagRun_newline hq1
      have hrank : q.rank ≤ q1.rank := by
        rcases rank_le_of_tagRun hq hq1 with h | h
        · exact absurd h hq1o
        · exact h
      have hcl : cleanLines (a :: b :: rest)
          = if normalizeLine a ≠ [] ∧ (normalizeLine a).length > 10 then
              normalizeLine a :: cleanLines (b :: rest)
            else cleanLines (b :: rest) := by
        simp [cleanLines]
      rw [hcl]
      split
      · cases hK : cleanLines (b :: rest) with
        | nil =>
          obtain ⟨r2, hr2, _⟩ := Sim.normalizeLine a q q2 r0 hle hr0
          exact ⟨r2, hr2⟩
        | cons k K =>
          have hsim : Sim (a ++ [10]) (normalizeLine a ++ [10, 10]) :=
            (Sim.normalizeLine a).append
              (Sim.plain (by simp) (by simp) (by simp) (by simp))
          obtain ⟨p1, hp1, hle1⟩ := hsim q q2 q1 hle hq1
          have hp1o := tagRun_newline2 hp1
          obtain ⟨r2, hr2⟩ := tagRun_cleanLines (b :: rest) q1 p1 hle1 hq1o hp1o ⟨r, hr⟩
          rw [hK] at hr2
          refine ⟨r2, ?_⟩
          have hj2 : stringsJoin [10, 10] (normalizeLine a :: k :: K)
              = (normalizeLine a ++ [10, 10]) ++ stringsJoin [10, 10] (k :: K) := by
            simp [stringsJoin]
          rw [hj2, tagRun_append, hp1]
          exact hr2
      · exact tagRun_cleanLines (b :: rest) q1 q2 (Nat.le_trans hle hrank) hq1o hq2 ⟨r, hr⟩

theorem tagRun_take {q r : TagState} {s : Str} (n : Nat) (h : tagRun q s = some r) :
    ∃ r2, tagRun q (s.take n) = some r2 := by
  rw [← List.take_append_drop n s, tagRun_append] at h
  cases hq : tagRun q (s.take n) with
  | none => simp [hq] at h
  | some r2 => exact ⟨r2, rfl⟩
/-! ## The capture of a pattern is made of bytes of the input -/

theorem capIn_reLazyCap (k : Str → Option Str) : CapIn (reLazyCap k) := by
  intro s
  induction s with
  | nil =>
    intro cap rest h x hx
    simp only [reLazyCap] at h
    cases hk : k [] with
    | none => simp [hk] at h
    | some r =>
      simp only [hk, Option.map_some', Option.some.injEq, Prod.mk.injEq] at h
      rw [← h.1] at hx
      cases hx
  | cons b t ih =>
    intro cap rest h x hx
    simp only [reLazyCap] at h
    cases hk : k (b :: t) with
    | some r =>
      simp only [hk, Option.some.injEq, Prod.mk.injEq] at h
      rw [← h.1] at hx
      cases hx
    | none =>
      simp only [hk] at h
      cases hr : reLazyCap k t with
      | none => simp [hr] at h
      | some cr =>
        obtain ⟨c2, r2⟩ := cr
        simp only [hr, Option.some.injEq, Prod.mk.injEq] at h
        rw [← h.1] at hx
        rcases List.mem_cons.mp hx with rfl | hx
        · exact List.mem_cons_self _ _
        · exact List.mem_cons_of_mem _ (ih c2 r2 hr x hx)

theorem capIn_reLit (l : Str) {k : Str → Option (Str × Str)} (hk : CapIn k) :
    CapIn (reLit l k) := by
  intro s cap rest h x hx
  obtain ⟨t, ht, hkt⟩ := reLit_eq_some k l s (cap, rest) h
  rw [ht]
  exact List.mem_append_right _ (hk t cap rest hkt x hx)

theorem mem_of_byteFold {c : Nat} {s t : Str} (h : byteFold c s = some t) :
    ∀ x ∈ t, x ∈ s := by
  cases s with
  | nil => simp [byteFold] at h
  | cons b u =>
    simp only [byteFold] at h
    have tail : some u = some t → ∀ x ∈ t, x ∈ b :: u := by
      intro he x hx
      simp only [Option.some.injEq] at he
      exact List.mem_cons_of_mem _ (he ▸ hx)
    split at h
    · exact tail h
    · split at h
      · exact tail h
      · split at h
        · exact tail h
        · split at h
          · split at h
            · simp only [Option.some.injEq] at h
              intro x hx
              exact List.mem_cons_of_mem _ (List.mem_cons_of_mem _ (h ▸ hx))
            · cases h
          · split at h
            · split at h
              · simp only [Option.some.injEq] at h
                intro x hx
                exact List.mem_cons_of_mem _
                  (List.mem_cons_of_mem _ (List.mem_cons_of_mem _ (h ▸ hx)))
              · cases h
            · cases h

theorem capIn_reLitFold {k : Str → Option (Str × Str)} (hk : CapIn k) :
    ∀ l : Str, CapIn (reLitFold l k)
  | [] => by
    intro s cap rest h
    exact hk s cap rest (by simpa [reLitFold] using h)
  | c :: cs => by
    intro s cap rest h x hx
    simp only [reLitFold] at h
    cases hb : byteFold c s with
    | none => simp [hb] at h
    | some t =>
      rw [hb] at h
      exact mem_of_byteFold hb x (capIn_reLitFold hk cs t cap rest h x hx)

theorem capIn_reStar (p : Nat → Bool) {k : Str → Option (Str × Str)} (hk : CapIn k) :
    CapIn (reStar p k) := by
  intro s
  induction s with
  | nil =>
    intro cap rest h
    exact hk [] cap rest (by simpa [reStar] using h)
  | cons b t ih =>
    intro cap rest h x hx
    simp only [reStar] at h
    split at h
    · cases hr : reStar p k t with
      | none =>
        rw [hr] at h
        exact hk _ cap rest h x hx
      | some r =>
        rw [hr] at h
        simp only [Option.some.injEq] at h
        subst h
        exact List.mem_cons_of_mem _ (ih cap rest hr x hx)
    · exact hk _ cap rest h x hx

theorem capIn_reAltFold {k : Str → Option (Str × Str)} (hk : CapIn k) :
    ∀ ls : List Str, CapIn (reAltFold ls k)
  | [] => by
    intro s cap rest h
    simp [reAltFold] at h
  | l :: ls => by
    intro s cap rest h
    simp only [reAltFold] at h
    cases hr : reLitFold l k s with
    | none =>
      rw [hr] at h
      exact capIn_reAltFold hk ls s cap rest h
    | some r =>
      rw [hr] at h
      simp only [Option.some.injEq] at h
      subst h
      exact capIn_reLitFold hk l s cap rest hr

theorem capIn_reArticle : CapIn reArticle :=
  capIn_reLitFold (capIn_reStar _ (capIn_reLit _ (capIn_reLazyCap _))) _

theorem capIn_reMain : CapIn reMain :=
  capIn_reLitFold (capIn_reStar _ (capIn_reLit _ (capIn_reLazyCap _))) _

theorem capIn_reBody : CapIn reBody :=
  capIn_reLitFold (capIn_reStar _ (capIn_reLit _ (capIn_reLazyCap _))) _

theorem capIn_reDivTail : CapIn reDivTail :=
  capIn_reLit _ (capIn_reStar _ (capIn_reAltFold (capIn_reStar _ (capIn_reLit _
    (capIn_reStar _ (capIn_reLit _ (capIn_reLazyCap _))))) _))

theorem capIn_reDivClass : CapIn reDivClass :=
  capIn_reLitFold (capIn_reStar _ (capIn_reLitFold capIn_reDivTail _)) _

theorem capIn_reDivId : CapIn reDivId :=
  capIn_reLitFold (capIn_reStar _ (capIn_reLitFold capIn_reDivTail _)) _

theorem mem_of_findSubmatch {pat : Str → Option (Str × Str)} (hp : CapIn pat) :
    ∀ (s cap : Str), findSubmatch pat s = some cap → ∀ x ∈ cap, x ∈ s
  | [], cap, h, x, hx => by
    simp only [findSubmatch, findFirst, Option.map_eq_some'] at h
    obtain ⟨⟨c, r⟩, hm, hc⟩ := h
    simp only at hc
    subst hc
    exact hp [] _ r hm x hx
  | b :: t, cap, h, x, hx => by
    simp only [findSubmatch, findFirst] at h
    cases hm : pat (b :: t) with
    | none =>
      rw [hm] at h
      exact List.mem_cons_of_mem _ (mem_of_findSubmatch hp t cap h x hx)
    | some cr =>
      obtain ⟨c, r⟩ := cr
      rw [hm] at h
      simp only [Option.map_some', Option.some.injEq] at h
      subst h
      exact hp _ _ r hm x hx

theorem mem_of_selectLoop (s : Str) :
    ∀ pats : List (Str → Option (Str × Str)), (∀ p ∈ pats, CapIn p) →
      ∀ x ∈ selectLoop pats s, x ∈ s
  | [], _, x, hx => by simp [selectLoop] at hx
  | p :: pats, h, x, hx => by
    have ih := mem_of_selectLoop s pats (fun q hq => h q (List.mem_cons_of_mem _ hq)) x
    simp only [selectLoop] at hx
    cases hp : findSubmatch p s with
    | none =>
      rw [hp] at hx
      exact ih hx
    | some cap =>
      rw [hp] at hx
      simp only at hx
      split at hx
      · exact mem_of_findSubmatch (h p (List.mem_cons_self p pats)) s cap hp x hx
      · exact ih hx

/-- The selected region is made of bytes of the document. -/
theorem mem_of_selectRegion (s : Str) : ∀ x ∈ selectRegion s, x ∈ s := by
  intro x hx
  have hpats : ∀ p ∈ patterns, CapIn p := by
    intro p hp
    simp only [patterns, List.mem_cons, List.mem_singleton, List.not_mem_nil, or_false] at hp
    rcases hp with rfl | rfl | rfl | rfl
    · exact capIn_reArticle
    · exact capIn_reMain
    · exact capIn_reDivClass
    · exact capIn_reDivId
  unfold selectRegion at hx
  simp only at hx
  split at hx
  · cases hb : findSubmatch reBody s with
    | none =>
      rw [hb] at hx
      exact hx
    | some cap =>
      rw [hb] at hx
      exact mem_of_findSubmatch capIn_reBody s cap hb x hx
  · exact mem_of_selectLoop s patterns hpats x hx

/-- A document without `&` gives a text without `&` to the entity decoder. -/
theorem not_mem_amp_stages {html : Str} (h : 38 ∉ html) :
    38 ∉ stripTags (selectRegion (stripNoise html)) := by
  have h1 : 38 ∉ stripNoise html := by
    unfold stripNoise
    exact not_mem_replaceAll (not_mem_replaceAll (not_mem_replaceAll h (by simp)) (by simp))
      (by simp)
  have h2 : 38 ∉ selectRegion (stripNoise html) := fun hx => h1 (mem_of_selectRegion _ _ hx)
  unfold stripTags
  exact not_mem_replaceAll (not_mem_replaceAll h2 (by simp)) (by simp)

/-- The extraction of a document without `&` stands the scan for tag-like spans. -/
theorem tagRun_extractTextFromHTML {order : List (Str × Str)}
    (ho : ∀ e ∈ order, e ∈ entities) {html : Str} (h : 38 ∉ html) :
    ∃ r, tagRun .clear (extractTextFromHTML order html) = some r := by
  unfold extractTextFromHTML joinedText
  rw [decodeHTMLEntities_of_not_mem ho (not_mem_amp_stages h)]
  have h1 : ∃ r, tagRun .clear (stripTags (selectRegion (stripNoise html))) = some r := by
    unfold stripTags
    exact tagRun_replaceAll_reTag _
  rw [← stringsJoin_splitLines (stripTags (selectRegion (stripNoise html)))] at h1
  obtain ⟨r2, hr2⟩ := tagRun_cleanLines _ .clear .clear (Nat.le_refl _) (by simp) (by simp) h1
  unfold limitSize
  split
  · exact tagRun_take 50000 hr2
  · exact ⟨r2, hr2⟩

/-! ## The claims -/

/-- C1: on the input `<script>alert(1)</script><article>Hello World, this is the article
body text that is long enough.</article>` the extraction returns exactly `Hello World,
this is the article body text that is long enough.`, whatever the order in which the
entity map is visited. -/
theorem c1_noise_stripping_end_to_end (order : List (Str × Str)) (hp : order.Perm entities) :
    extractTextFromHTML order (ascii
      "<script>alert(1)</script><article>Hello World, this is the article body text that is long enough.</article>")
      = ascii "Hello World, this is the article body text that is long enough." := by
  have h1 : stripTags (selectRegion (stripNoise (ascii
      "<script>alert(1)</script><article>Hello World, this is the article body text that is long enough.</article>")))
      = ascii " Hello World, this is the article body text that is long enough. " := by decide!
  have h2 : 38 ∉ ascii " Hello World, this is the article body text that is long enough. " := by
    decide!
  unfold extractTextFromHTML joinedText
  rw [h1, decodeHTMLEntities_of_not_mem (mem_entities_of_perm hp) h2]
  decide!

theorem c1_noise_stripping_end_to_end_witness :
    extractTextFromHTML entities (ascii
      "<script>alert(1)</script><article>Hello World, this is the article body text that is long enough.</article>")
      = ascii "Hello World, this is the article body text that is long enough." :=
  c1_noise_stripping_end_to_end entities (List.Perm.refl _)

/-- C2: an out-of-range numeric reference is returned unchanged.  `ds` is any non-empty
string of digits, `v` the number it denotes in base 10 (first part) or in base 16
(second part, after `&#x` and after `&#X`), and `v` is 0 or above 1,114,111. -/
theorem c2_out_of_range_unchanged (order : List (Str × Str)) (hp : order.Perm entities)
    (ds : Str) (v : Nat) (hne : ds ≠ []) (hv : v = 0 ∨ 1114111 < v) :
    (parseDigits 10 0 ds = some v →
      decodeHTMLEntities order (ascii "&#" ++ ds ++ ascii ";") = ascii "&#" ++ ds ++ ascii ";") ∧
    (parseDigits 16 0 ds = some v →
      decodeHTMLEntities order (ascii "&#x" ++ ds ++ ascii ";")
        = ascii "&#x" ++ ds ++ ascii ";" ∧
      decodeHTMLEntities order (ascii "&#X" ++ ds ++ ascii ";")
        = ascii "&#X" ++ ds ++ ascii ";") := by
  have ho := mem_entities_of_perm hp
  have hnot : ¬ (0 < v ∧ v < 1114112) := by omega
  constructor
  · intro hpd
    have hd := parseDigits_dec_digits ds 0 v hpd
    have e1 : ascii "&#" ++ ds ++ ascii ";" = 38 :: 35 :: (ds ++ [59]) := by
      have h0 : ascii "&#" = [38, 35] := by decide
      have h1 : ascii ";" = [59] := by decide
      rw [h0, h1]; rfl
    rw [e1]
    unfold decodeHTMLEntities
    rw [replaceEntities_numRef ho (mem_append_semicolon (isDigit_ne_amp hd)),
      decodeDecimal_decRef hne hpd, if_neg hnot, decodeHex_decRef hne hd]
    · intro r hr
      have := decRef_ne_of_digits hd hr
      rw [this, parseDigits_ascii34] at hpd
      simp only [Option.some.injEq] at hpd
      omega
    · intro r hr
      have := decRef_ne_of_digits hd hr
      rw [this, parseDigits_ascii39] at hpd
      simp only [Option.some.injEq] at hpd
      omega
  · intro hpd
    have hd := parseDigits_hex_digits ds 0 v hpd
    have key : ∀ x, x = 120 ∨ x = 88 →
        decodeHTMLEntities order (38 :: 35 :: x :: (ds ++ [59])) = 38 :: 35 :: x :: (ds ++ [59]) := by
      intro x hx
      have hmem : 38 ∉ x :: (ds ++ [59]) := by
        have := isHexDigit_ne_amp hd
        have hxa : (38 : Nat) ≠ x := by omega
        simp [this, hxa]
      unfold decodeHTMLEntities
      rw [replaceEntities_numRef ho hmem, decodeDecimal_hexRef hx hd,
        decodeHex_hexRef hx hne hpd, if_neg hnot]
      · intro r hr
        simp only [List.cons.injEq] at hr
        omega
      · intro r hr
        simp only [List.cons.injEq] at hr
        omega
    have e1 : ascii "&#x" ++ ds ++ ascii ";" = 38 :: 35 :: 120 :: (ds ++ [59]) := by
      have h0 : ascii "&#x" = [38, 35, 120] := by decide
      have h1 : ascii ";" = [59] := by decide
      rw [h0, h1]; rfl
    have e2 : ascii "&#X" ++ ds ++ ascii ";" = 38 :: 35 :: 88 :: (ds ++ [59]) := by
      have h0 : ascii "&#X" = [38, 35, 88] := by decide
      have h1 : ascii ";" = [59] := by decide
      rw [h0, h1]; rfl
    rw [e1, e2]
    exact ⟨key 120 (Or.inl rfl), key 88 (Or.inr rfl)⟩

theorem c2_out_of_range_unchanged_witness :
    decodeHTMLEntities entities (ascii "&#0;") = ascii "&#0;" ∧
    decodeHTMLEntities entities (ascii "&#1114112;") = ascii "&#1114112;" ∧
    decodeHTMLEntities entities (ascii "&#xFFFFFFFF;") = ascii "&#xFFFFFFFF;" :=
  ⟨(c2_out_of_range_unchanged entities (List.Perm.refl _) (ascii "0") 0 (by decide)
      (Or.inl rfl)).1 (by decide),
   (c2_out_of_range_unchanged entities (List.Perm.refl _) (ascii "1114112") 1114112 (by decide)
      (Or.inr (by decide))).1 (by decide),
   ((c2_out_of_range_unchanged entities (List.Perm.refl _) (ascii "FFFFFFFF") 4294967295
      (by decide) (Or.inr (by decide))).2 (by decide)).1⟩

/-- C3, refuted: the reference to the surrogate 55296 (0xD800) decodes to the encoding
of U+FFFD (65533), not to a text of the code point 55296. -/
theorem c3_surrogate_replaced :
    decodeHTMLEntities entities (ascii "&#55296;") = utf8Encode 65533 ∧
    decodeHTMLEntities entities (ascii "&#xD800;") = utf8Encode 65533 ∧
    decodeHTMLEntities entities (ascii "&#55296;") ≠ utf8Encode 55296 ∧
    decodeHTMLEntities entities (ascii "&#55296;")
      = decodeHTMLEntities entities (ascii "&#65533;") := by
  decide!

/-- C3, amended: a numeric reference whose number `v` is in 1..1,114,111 decodes to the
UTF-8 encoding of the code point `v` alone when `v` is no surrogate, and to the encoding
of U+FFFD when `v` is a surrogate (55296..57343).  `ds` is any string of digits that
denotes `v` in base 10 (first part) or in base 16 (second part). -/
theorem c3_in_range_decoded (order : List (Str × Str)) (hp : order.Perm entities)
    (ds : Str) (v : Nat) (h1 : 1 ≤ v) (h2 : v ≤ 1114111) :
    (parseDigits 10 0 ds = some v →
      decodeHTMLEntities order (ascii "&#" ++ ds ++ ascii ";")
        = if 55296 ≤ v ∧ v ≤ 57343 then utf8Encode 65533 else utf8Encode v) ∧
    (parseDigits 16 0 ds = some v →
      decodeHTMLEntities order (ascii "&#x" ++ ds ++ ascii ";")
        = (if 55296 ≤ v ∧ v ≤ 57343 then utf8Encode 65533 else utf8Encode v) ∧
      decodeHTMLEntities order (ascii "&#X" ++ ds ++ ascii ";")
        = (if 55296 ≤ v ∧ v ≤ 57343 then utf8Encode 65533 else utf8Encode v)) := by
  have ho := mem_entities_of_perm hp
  have hin : 0 < v ∧ v < 1114112 := by omega
  have hrune : runeString v
      = if 55296 ≤ v ∧ v ≤ 57343 then utf8Encode 65533 else utf8Encode v := by
    unfold runeString
    by_cases hs : 55296 ≤ v ∧ v ≤ 57343
    · rw [if_pos (Or.inl hs), if_pos hs]; decide
    · have : ¬ ((55296 ≤ v ∧ v ≤ 57343) ∨ 1114111 < v) := by omega
      rw [if_neg this, if_neg hs]
  have hne : ∀ b, parseDigits b 0 ds = some v → ds ≠ [] := by
    intro b hb hnil
    rw [hnil] at hb
    simp only [parseDigits, Option.some.injEq] at hb
    omega
  rw [← hrune]
  constructor
  · intro hpd
    have hd := parseDigits_dec_digits ds 0 v hpd
    have e1 : ascii "&#" ++ ds ++ ascii ";" = 38 :: 35 :: (ds ++ [59]) := by
      have h0 : ascii "&#" = [38, 35] := by decide
      have h1 : ascii ";" = [59] := by decide
      rw [h0, h1]; rfl
    rw [e1]
    unfold decodeHTMLEntities
    by_cases h34 : ds = [51, 52]
    · subst h34
      rw [parseDigits_ascii34] at hpd
      simp only [Option.some.injEq] at hpd
      subst hpd
      rw [replaceEntities_step hp _ [34] (by decide!) (by decide!) (by decide!)]
      decide!
    by_cases h39 : ds = [51, 57]
    · subst h39
      rw [parseDigits_ascii39] at hpd
      simp only [Option.some.injEq] at hpd
      subst hpd
      rw [replaceEntities_step hp _ [39] (by decide!) (by decide!) (by decide!)]
      decide!
    rw [replaceEntities_numRef ho (mem_append_semicolon (isDigit_ne_amp hd)),
      decodeDecimal_decRef (hne 10 hpd) hpd, if_pos hin, decodeHex_runeString]
    · intro r hr
      exact h34 (decRef_ne_of_digits hd hr)
    · intro r hr
      exact h39 (decRef_ne_of_digits hd hr)
  · intro hpd
    have hd := parseDigits_hex_digits ds 0 v hpd
    have key : ∀ x, x = 120 ∨ x = 88 →
        decodeHTMLEntities order (38 :: 35 :: x :: (ds ++ [59])) = runeString v := by
      intro x hx
      have hmem : 38 ∉ x :: (ds ++ [59]) := by
        have := isHexDigit_ne_amp hd
        have hxa : (38 : Nat) ≠ x := by omega
        simp [this, hxa]
      unfold decodeHTMLEntities
      rw [replaceEntities_numRef ho hmem, decodeDecimal_hexRef hx hd,
        decodeHex_hexRef hx (hne 16 hpd) hpd, if_pos hin]
      · intro r hr
        simp only [List.cons.injEq] at hr
        omega
      · intro r hr
        simp only [List.cons.injEq] at hr
        omega
    have e1 : ascii "&#x" ++ ds ++ ascii ";" = 38 :: 35 :: 120 :: (ds ++ [59]) := by
      have h0 : ascii "&#x" = [38, 35, 120] := by decide
      have h1 : ascii ";" = [59] := by decide
      rw [h0, h1]; rfl
    have e2 : ascii "&#X" ++ ds ++ ascii ";" = 38 :: 35 :: 88 :: (ds ++ [59]) := by
      have h0 : ascii "&#X" = [38, 35, 88] := by decide
      have h1 : ascii ";" = [59] := by decide
      rw [h0, h1]; rfl
    rw [e1, e2]
    exact ⟨key 120 (Or.inl rfl), key 88 (Or.inr rfl)⟩

theorem c3_in_range_decoded_witness :
    decodeHTMLEntities entities (ascii "&#8364;") = [226, 130, 172] ∧
    decodeHTMLEntities entities (ascii "&#x20AC;") = [226, 130, 172] ∧
    decodeHTMLEntities entities (ascii "&#1114111;") = [244, 143, 191, 191] ∧
    decodeHTMLEntities entities (ascii "&#57343;") = [239, 191, 189] :=
  ⟨(c3_in_range_decoded entities (List.Perm.refl _) (ascii "8364") 8364 (by decide)
      (by decide)).1 (by decide),
   ((c3_in_range_decoded entities (List.Perm.refl _) (ascii "20AC") 8364 (by decide)
      (by decide)).2 (by decide)).1,
   (c3_in_range_decoded entities (List.Perm.refl _) (ascii "1114111") 1114111 (by decide)
      (by decide)).1 (by decide),
   (c3_in_range_decoded entities (List.Perm.refl _) (ascii "57343") 57343 (by decide)
      (by decide)).1 (by decide)⟩

/-- C6, refuted: a line whose normalized form has exactly 10 bytes is discarded. -/
theorem c6_ten_byte_line_discarded :
    normalizeLine (ascii "0123456789") = ascii "0123456789" ∧
    (normalizeLine (ascii "0123456789")).length = 10 ∧
    cleanLines [ascii "0123456789"] = [] ∧
    extractTextFromHTML entities (ascii "0123456789") = [] := by
  decide!

/-- C6, amended: a line survives the filter if and only if its normalized form is longer
than 10 bytes, that is has at least 11: the clean lines are the normalized lines longer
than 10, in order; and a text that is one line of plain bytes is returned (up to the size
limit) when it is longer than 10 bytes and gives the empty text when it has 10 bytes or
fewer. -/
theorem c6_line_kept_iff_longer_than_ten (order : List (Str × Str))
    (hp : order.Perm entities) (lines : List Str) (s : Str)
    (hs : ∀ b ∈ s, plainByte b = true) :
    cleanLines lines = (lines.map normalizeLine).filter (fun l => decide (11 ≤ l.length)) ∧
    (11 ≤ s.length → extractTextFromHTML order s = s.take 50000) ∧
    (s.length ≤ 10 → extractTextFromHTML order s = []) := by
  refine ⟨?_, ?_, ?_⟩
  · induction lines with
    | nil => rfl
    | cons a rest ih =>
      simp only [cleanLines, List.map_cons, List.filter_cons]
      by_cases h : 11 ≤ (normalizeLine a).length
      · have hc : normalizeLine a ≠ [] ∧ (normalizeLine a).length > 10 := by
          refine ⟨?_, h⟩
          intro hnil
          rw [hnil] at h
          simp at h
        rw [if_pos hc, ih]
        simp [h]
      · have hc : ¬ (normalizeLine a ≠ [] ∧ (normalizeLine a).length > 10) := fun hc => h hc.2
        rw [if_neg hc, ih]
        simp [h]
  · intro h
    rw [extractTextFromHTML_of_plain (mem_entities_of_perm hp) hs, if_pos (by omega)]
  · intro h
    rw [extractTextFromHTML_of_plain (mem_entities_of_perm hp) hs, if_neg (by omega)]

theorem c6_line_kept_iff_longer_than_ten_witness :
    cleanLines [ascii "0123456789", ascii "  0123456789a  ", ascii "012345678"]
      = [ascii "0123456789a"] ∧
    extractTextFromHTML entities (ascii "0123456789a") = ascii "0123456789a" ∧
    extractTextFromHTML entities (ascii "012345678") = [] :=
  ⟨(c6_line_kept_iff_longer_than_ten entities (List.Perm.refl _)
      [ascii "0123456789", ascii "  0123456789a  ", ascii "012345678"] (ascii "0123456789a")
      (by decide)).1.trans (by decide!),
   ((c6_line_kept_iff_longer_than_ten entities (List.Perm.refl _) [] (ascii "0123456789a")
      (by decide)).2.1 (by decide)).trans (by decide!),
   (c6_line_kept_iff_longer_than_ten entities (List.Perm.refl _) [] (ascii "012345678")
      (by decide)).2.2 (by decide)⟩

/-- C8, refuted: the tags are removed before the entities are decoded, so the entities
`&lt;` and `&gt;` of the input come out as a tag-like span: `&lt;b&gt; some text here`
gives `<b> some text here`. -/
theorem c8_tag_from_entities :
    extractTextFromHTML entities (ascii "&lt;b&gt; some text here")
      = ascii "<b> some text here" ∧
    TagLike (extractTextFromHTML entities (ascii "&lt;b&gt; some text here")) := by
  have h : extractTextFromHTML entities (ascii "&lt;b&gt; some text here")
      = ascii "<b> some text here" := by decide!
  refine ⟨h, ?_⟩
  rw [h]
  exact ⟨[], [98], ascii " some text here", by decide, by decide, by decide⟩

/-- C8, amended: for every document without the byte `&` (so that entity decoding has
nothing to produce), the returned text has no tag-like span: no `<` followed by one or
more bytes other than `>` and then a `>`; this holds whatever the order in which the
entity map is visited. -/
theorem c8_no_tag_without_amp (order : List (Str × Str)) (hp : order.Perm entities)
    (html : Str) (h : 38 ∉ html) : ¬ TagLike (extractTextFromHTML order html) := by
  intro ht
  obtain ⟨r, hr⟩ := tagRun_extractTextFromHTML (mem_entities_of_perm hp) h
  rw [tagRun_of_tagLike ht] at hr
  cases hr

theorem c8_no_tag_without_amp_witness :
    ¬ TagLike (extractTextFromHTML entities
      (ascii "<p>A first paragraph, with <b>bold</b> text</p><p>1 < 2 and 3 > 2, a<b and <>.</p>")) :=
  c8_no_tag_without_amp entities (List.Perm.refl _) _ (by decide)

/-- C10: the result depends on the order in which the entity map is visited: on
`&amp;lt;` the order of the source listing gives `<`, the reverse order gives `&lt;`. -/
theorem c10_order_dependent :
    entities.reverse.Perm entities ∧
    decodeHTMLEntities entities (ascii "&amp;lt;") = ascii "<" ∧
    decodeHTMLEntities entities.reverse (ascii "&amp;lt;") = ascii "&lt;" :=
  ⟨List.reverse_perm _, by decide!, by decide!⟩

end GoNews
